import Mathlib

/-!
Verification development for the `dm-ref-scraper` pipeline (`src/main.rs`).

The program converts one monolithic HTML reference document into a tree of
Markdown pages.  We shallowly embed its pipeline over `List Char` strings:

* Rust `str::replace` (both `char` and `&str` patterns) is embedded as the
  fuelled scanner `replaceList` below (left-to-right, non-overlapping).
* `make_ref_web_safe` (the slug sanitizer) is embedded byte-faithfully,
  including the `percent_decode_str(..).decode_utf8().unwrap()` step:
  UTF-8 encoding/decoding of the path is modelled explicitly, and the
  `unwrap` panic is modelled as `Option.none` (an aborted run).
* `escape_dollars_outside_code` / `find_closing_backticks` are embedded with
  the same scanning structure as the source.
* The two `regex` patterns applied to page titles are embedded with the
  regex crate's leftmost-first alternation semantics and greedy `.*`
  (where `.` does not match a newline), faithful to
  `(?:procs)|(?:vars) \((.*)\)` and `(.*) (?:proc)|(?:var)`.
* The external collaborators (the scraper DOM, `html2md`, `toml_edit`) are
  at the embedding boundary: a parsed fragment is the structure `HtmlFrag`
  holding exactly the element data the source selects, the HTML→Markdown
  engine is an abstract parameter `md`, and front matter is the record of
  key/value data handed to `toml_edit`.

Rust panics (`unwrap`) are modelled as `Option.none`: the whole run aborts.
-/

namespace DmRef

/-- Strings are modelled as lists of characters. -/
abbrev Str := List Char

/-- Convenience: a Lean string literal as a `Str`. -/
def str (s : String) : Str := s.toList

/-- Boolean and propositional prefix tests agree. -/
theorem isPrefixOf_eq_true {l₁ l₂ : List Char} : l₁.isPrefixOf l₂ = true ↔ l₁ <+: l₂ :=
  List.isPrefixOf_iff_prefix

/-- The empty list is a prefix of every list. -/
theorem nil_isPrefix {α : Type} {l : List α} : [] <+: l :=
  List.nil_prefix

/-- `takeWhile` never lengthens a list. -/
theorem takeWhile_len_le (p : Char → Bool) (l : Str) : (l.takeWhile p).length ≤ l.length :=
  List.IsPrefix.length_le (List.takeWhile_prefix p)

/-! ## Generic string machinery: `str::replace`

`replaceList pat repl s` is Rust `s.replace(pat, repl)`: scan left to right,
replace each non-overlapping occurrence of `pat`, never rescanning the
replacement text.  It is implemented with a fuel argument (the length of the
remaining input bounds the fuel) so that it is structural and computes by
`decide`/`rfl`. -/

/-- Fuelled core of `replaceList`. -/
def replaceListGo (pat repl : Str) : Nat → Str → Str
  | _, [] => []
  | 0, s => s
  | fuel + 1, c :: cs =>
    if pat ≠ [] ∧ pat.isPrefixOf (c :: cs) then
      repl ++ replaceListGo pat repl fuel ((c :: cs).drop pat.length)
    else
      c :: replaceListGo pat repl fuel cs

/-- Rust `s.replace(pat, repl)` on `List Char`. -/
def replaceList (pat repl s : Str) : Str := replaceListGo pat repl s.length s

theorem replaceListGo_congr (pat repl : Str) :
    ∀ f₁ f₂ s, s.length ≤ f₁ → s.length ≤ f₂ →
      replaceListGo pat repl f₁ s = replaceListGo pat repl f₂ s := by
  intro f₁
  induction f₁ with
  | zero =>
    intro f₂ s hs₁ _
    have : s = [] := List.eq_nil_of_length_eq_zero (Nat.le_zero.mp hs₁)
    subst this
    cases f₂ <;> simp [replaceListGo]
  | succ f ih =>
    intro f₂ s hs₁ hs₂
    cases s with
    | nil => cases f₂ <;> simp [replaceListGo]
    | cons c cs =>
      cases f₂ with
      | zero => simp at hs₂
      | succ f₂' =>
        simp only [replaceListGo]
        by_cases h : pat ≠ [] ∧ pat.isPrefixOf (c :: cs)
        · simp only [if_pos h]
          have hlen : ((c :: cs).drop pat.length).length ≤ f := by
            have hp : 1 ≤ pat.length := by
              cases pat with
              | nil => exact absurd rfl h.1
              | cons _ _ => simp
            simp only [List.length_drop, List.length_cons]
            simp only [List.length_cons] at hs₁
            omega
          have hlen₂ : ((c :: cs).drop pat.length).length ≤ f₂' := by
            have hp : 1 ≤ pat.length := by
              cases pat with
              | nil => exact absurd rfl h.1
              | cons _ _ => simp
            simp only [List.length_drop, List.length_cons]
            simp only [List.length_cons] at hs₂
            omega
          rw [ih _ _ hlen hlen₂]
        · simp only [if_neg h]
          have hlen : cs.length ≤ f := by simp only [List.length_cons] at hs₁; omega
          have hlen₂ : cs.length ≤ f₂' := by simp only [List.length_cons] at hs₂; omega
          rw [ih _ _ hlen hlen₂]

theorem replaceListGo_eq (pat repl : Str) {f : Nat} {s : Str} (h : s.length ≤ f) :
    replaceListGo pat repl f s = replaceList pat repl s :=
  replaceListGo_congr pat repl f s.length s h (Nat.le_refl _)

@[simp] theorem replaceList_nil (pat repl : Str) : replaceList pat repl [] = [] := by
  simp [replaceList, replaceListGo]

theorem replaceList_cons_pos {pat : Str} (repl : Str) {c : Char} {cs : Str}
    (hne : pat ≠ []) (hpre : pat.isPrefixOf (c :: cs)) :
    replaceList pat repl (c :: cs) =
      repl ++ replaceList pat repl ((c :: cs).drop pat.length) := by
  have h1 : 1 ≤ pat.length := by
    cases pat with
    | nil => exact absurd rfl hne
    | cons _ _ => simp
  simp only [replaceList, List.length_cons, replaceListGo, if_pos (And.intro hne hpre)]
  congr 1
  exact replaceListGo_eq pat repl (by simp only [List.length_drop, List.length_cons]; omega)

theorem replaceList_cons_neg {pat : Str} (repl : Str) {c : Char} {cs : Str}
    (h : ¬ (pat ≠ [] ∧ pat.isPrefixOf (c :: cs))) :
    replaceList pat repl (c :: cs) = c :: replaceList pat repl cs := by
  simp only [replaceList, List.length_cons, replaceListGo, if_neg h]

/-- Rust `s.contains(pat)` (substring containment) on `List Char`. -/
def containsSub (pat : Str) : Str → Bool
  | [] => pat.isPrefixOf []
  | c :: cs => pat.isPrefixOf (c :: cs) || containsSub pat cs

theorem containsSub_iff (pat s : Str) : containsSub pat s = true ↔ pat <:+: s := by
  induction s with
  | nil =>
    simp only [containsSub, isPrefixOf_eq_true]
    constructor
    · intro h; exact h.isInfix
    · intro h; exact (List.prefix_nil.mpr (List.eq_nil_of_infix_nil h)) 
  | cons c cs ih =>
    simp only [containsSub, Bool.or_eq_true, isPrefixOf_eq_true, ih,
      List.infix_cons_iff]

theorem containsSub_eq_false (pat s : Str) : containsSub pat s = false ↔ ¬ pat <:+: s := by
  rw [← containsSub_iff]
  simp

/-! ### Generic lemmas about `replaceList` -/

theorem mem_replaceList {pat repl : Str} {a : Char} :
    ∀ n (s : Str), s.length ≤ n → a ∈ replaceList pat repl s → a ∈ s ∨ a ∈ repl := by
  intro n
  induction n with
  | zero =>
    intro s hs ha
    have : s = [] := List.eq_nil_of_length_eq_zero (Nat.le_zero.mp hs)
    subst this; simp at ha
  | succ n ih =>
    intro s hs ha
    cases s with
    | nil => simp at ha
    | cons c cs =>
      by_cases h : pat ≠ [] ∧ pat.isPrefixOf (c :: cs)
      · rw [replaceList_cons_pos repl h.1 h.2] at ha
        rcases List.mem_append.mp ha with h1 | h2
        · exact Or.inr h1
        · have hp : 1 ≤ pat.length := by
            cases pat with
            | nil => exact absurd rfl h.1
            | cons _ _ => simp
          have hlen : ((c :: cs).drop pat.length).length ≤ n := by
            simp only [List.length_drop, List.length_cons]
            simp only [List.length_cons] at hs
            omega
          rcases ih _ hlen h2 with h3 | h3
          · exact Or.inl (List.mem_of_mem_drop h3)
          · exact Or.inr h3
      · rw [replaceList_cons_neg repl h] at ha
        rcases List.mem_cons.mp ha with h1 | h2
        · exact Or.inl (h1 ▸ List.mem_cons_self c cs)
        · have hlen : cs.length ≤ n := by
            simp only [List.length_cons] at hs; omega
          rcases ih _ hlen h2 with h3 | h3
          · exact Or.inl (List.mem_cons_of_mem _ h3)
          · exact Or.inr h3

theorem replaceList_no_occ {pat repl : Str} :
    ∀ n (s : Str), s.length ≤ n → ¬ pat <:+: s → replaceList pat repl s = s := by
  intro n
  induction n with
  | zero =>
    intro s hs _
    have : s = [] := List.eq_nil_of_length_eq_zero (Nat.le_zero.mp hs)
    subst this; simp
  | succ n ih =>
    intro s hs hocc
    cases s with
    | nil => simp
    | cons c cs =>
      have hnp : ¬ (pat ≠ [] ∧ pat.isPrefixOf (c :: cs)) := by
        rintro ⟨_, hpre⟩
        exact hocc ((isPrefixOf_eq_true.mp hpre).isInfix)
      rw [replaceList_cons_neg repl hnp]
      have : ¬ pat <:+: cs := fun h => hocc (List.infix_cons_iff.mpr (Or.inr h))
      have hlen : cs.length ≤ n := by simp only [List.length_cons] at hs; omega
      rw [ih _ hlen this]

/-- A single-character replacement whose replacement text does not contain the
character removes every occurrence of it. -/
theorem replaceList_single_removes {c : Char} {repl : Str} (hrepl : c ∉ repl) :
    ∀ n (s : Str), s.length ≤ n → c ∉ replaceList [c] repl s := by
  intro n
  induction n with
  | zero =>
    intro s hs
    have : s = [] := List.eq_nil_of_length_eq_zero (Nat.le_zero.mp hs)
    subst this; simp
  | succ n ih =>
    intro s hs
    cases s with
    | nil => simp
    | cons d cs =>
      have hlen : cs.length ≤ n := by simp only [List.length_cons] at hs; omega
      by_cases h : d = c
      · subst h
        have hpre : List.isPrefixOf [d] (d :: cs) = true := by
          simp [isPrefixOf_eq_true, List.cons_prefix_cons]
        rw [replaceList_cons_pos repl (by simp) hpre]
        intro hmem
        rcases List.mem_append.mp hmem with h1 | h2
        · exact hrepl h1
        · exact ih _ (by simpa using hlen) h2
      · have hnp : ¬ (([c] : Str) ≠ [] ∧ List.isPrefixOf [c] (d :: cs)) := by
          rintro ⟨_, hpre⟩
          rcases isPrefixOf_eq_true.mp hpre with ⟨t, ht⟩
          simp only [List.cons_append, List.nil_append, List.cons.injEq] at ht
          exact h ht.1.symm
        rw [replaceList_cons_neg repl hnp]
        intro hmem
        rcases List.mem_cons.mp hmem with h1 | h2
        · exact h h1.symm
        · exact ih _ hlen h2

/-- A prefix of an append either stays inside the first part or swallows it. -/
theorem prefix_append_cases {x y b : Str} (h : x <+: y ++ b) : x <+: y ∨ y <+: x := by
  induction y generalizing x with
  | nil => exact Or.inr (nil_isPrefix)
  | cons d ys ih =>
    cases x with
    | nil => exact Or.inl (nil_isPrefix)
    | cons e xs =>
      rw [List.cons_append, List.cons_prefix_cons] at h
      rcases ih h.2 with h1 | h1
      · exact Or.inl (List.cons_prefix_cons.mpr ⟨h.1, h1⟩)
      · exact Or.inr (List.cons_prefix_cons.mpr ⟨h.1.symm, h1⟩)

/-- Mutually incomparable strings (neither is a prefix of the other). -/
def Incomp (x y : Str) : Prop := ¬ x <+: y ∧ ¬ y <+: x

theorem not_prefix_append_of_incomp {x y b : Str} (h : Incomp x y) : ¬ x <+: y ++ b := by
  intro hp
  rcases prefix_append_cases hp with h1 | h1
  · exact h.1 h1
  · exact h.2 h1

/-- An occurrence of `t` inside `a ++ b` lies inside `b`, or starts inside a
nonempty suffix of `a`. -/
theorem infix_append_split {t b : Str} :
    ∀ a : Str, t <:+: a ++ b →
      t <:+: b ∨ ∃ a₂, a₂ <:+ a ∧ a₂ ≠ [] ∧ t <+: a₂ ++ b := by
  intro a
  induction a with
  | nil => intro h; exact Or.inl (by simpa using h)
  | cons d as ih =>
    intro h
    rw [List.cons_append, List.infix_cons_iff] at h
    rcases h with h1 | h1
    · exact Or.inr ⟨d :: as, List.suffix_refl _, by simp, by simpa using h1⟩
    · rcases ih h1 with h2 | ⟨a₂, hsuf, hne, hpre⟩
      · exact Or.inl h2
      · exact Or.inr ⟨a₂, hsuf.trans (List.suffix_cons d as), hne, hpre⟩

/-- Prefix transfer: if no nonempty suffix of `t` is comparable with the
replacement text, then a nonempty suffix of `t` that is a prefix of
`replaceList pat repl s` was already a prefix of `s`. -/
theorem prefix_transfer {pat repl t : Str}
    (hc : ∀ t' ∈ t.tails, t' ≠ [] → Incomp t' repl) :
    ∀ n (s t' : Str), s.length ≤ n → t' <:+ t → t' ≠ [] →
      t' <+: replaceList pat repl s → t' <+: s := by
  intro n
  induction n with
  | zero =>
    intro s t' hs _ hne hp
    have : s = [] := List.eq_nil_of_length_eq_zero (Nat.le_zero.mp hs)
    subst this
    simp only [replaceList_nil] at hp
    exact absurd (List.prefix_nil.mp hp) hne
  | succ n ih =>
    intro s t' hs hsuf hne hp
    cases s with
    | nil =>
      simp only [replaceList_nil] at hp
      exact absurd (List.prefix_nil.mp hp) hne
    | cons c cs =>
      by_cases h : pat ≠ [] ∧ pat.isPrefixOf (c :: cs)
      · rw [replaceList_cons_pos repl h.1 h.2] at hp
        have hinc : Incomp t' repl := hc t' ((List.mem_tails _ _).mpr hsuf) hne
        exact absurd hp (not_prefix_append_of_incomp hinc)
      · rw [replaceList_cons_neg repl h] at hp
        cases t' with
        | nil => exact absurd rfl hne
        | cons e t'' =>
          rw [List.cons_prefix_cons] at hp
          rcases hp with ⟨he, hp2⟩
          subst he
          cases Decidable.em (t'' = []) with
          | inl h0 =>
            subst h0
            exact List.cons_prefix_cons.mpr ⟨rfl, nil_isPrefix⟩
          | inr h0 =>
            have hsuf' : t'' <:+ t := (List.suffix_cons e t'').trans hsuf
            have hlen : cs.length ≤ n := by simp only [List.length_cons] at hs; omega
            exact List.cons_prefix_cons.mpr ⟨rfl, ih _ _ hlen hsuf' h0 hp2⟩

/-- Non-creation: a replacement that is everywhere incomparable with `t`
cannot create a new occurrence of `t`. -/
theorem not_infix_replaceList {pat repl t : Str} (ht : t ≠ [])
    (hc : ∀ t' ∈ t.tails, t' ≠ [] → Incomp t' repl)
    (hsuf : ∀ a₂ ∈ repl.tails, a₂ ≠ [] → Incomp t a₂) :
    ∀ n (s : Str), s.length ≤ n → ¬ t <:+: s → ¬ t <:+: replaceList pat repl s := by
  intro n
  induction n with
  | zero =>
    intro s hs _ hocc
    have : s = [] := List.eq_nil_of_length_eq_zero (Nat.le_zero.mp hs)
    subst this
    simp only [replaceList_nil] at hocc
    exact ht (List.eq_nil_of_infix_nil hocc)
  | succ n ih =>
    intro s hs hno hocc
    cases s with
    | nil =>
      simp only [replaceList_nil] at hocc
      exact ht (List.eq_nil_of_infix_nil hocc)
    | cons c cs =>
      have hlen : cs.length ≤ n := by simp only [List.length_cons] at hs; omega
      by_cases h : pat ≠ [] ∧ pat.isPrefixOf (c :: cs)
      · rw [replaceList_cons_pos repl h.1 h.2] at hocc
        rcases infix_append_split repl hocc with h1 | ⟨a₂, ha₂, hne₂, hp₂⟩
        · have hp : 1 ≤ pat.length := by
            cases pat with
            | nil => exact absurd rfl h.1
            | cons _ _ => simp
          have hdlen : ((c :: cs).drop pat.length).length ≤ n := by
            simp only [List.length_drop, List.length_cons]
            simp only [List.length_cons] at hs
            omega
          have hnod : ¬ t <:+: (c :: cs).drop pat.length := fun hx =>
            hno (hx.trans (List.drop_suffix _ _).isInfix)
          exact ih _ hdlen hnod h1
        · exact not_prefix_append_of_incomp (hsuf a₂ ((List.mem_tails _ _).mpr ha₂) hne₂) hp₂
      · rw [replaceList_cons_neg repl h] at hocc
        rcases List.infix_cons_iff.mp hocc with h1 | h1
        · -- `t` starts at the original head character
          cases t with
          | nil => exact ht rfl
          | cons e t'' =>
            rw [List.cons_prefix_cons] at h1
            rcases h1 with ⟨he, hp2⟩
            subst he
            cases Decidable.em (t'' = []) with
            | inl h0 =>
              subst h0
              exact hno (List.IsPrefix.isInfix (List.cons_prefix_cons.mpr
                ⟨rfl, nil_isPrefix⟩))
            | inr h0 =>
              have hsuf' : t'' <:+ e :: t'' := List.suffix_cons e t''
              have : t'' <+: cs := prefix_transfer hc n cs t'' hlen hsuf' h0 hp2
              exact hno (List.IsPrefix.isInfix (List.cons_prefix_cons.mpr ⟨rfl, this⟩))
        · have : ¬ t <:+: cs := fun hx => hno (List.infix_cons_iff.mpr (Or.inr hx))
          exact ih _ hlen this h1

/-! ## UTF-8 bytes and percent decoding

`make_ref_web_safe` begins with
`percent_encoding::percent_decode_str(dirty_path).decode_utf8().unwrap()`.
This operates on the UTF-8 bytes of the path, so we model bytes explicitly:
`utf8Encode` maps the path's characters to their UTF-8 bytes, `percentDecode`
models the crate's percent decoding, and `utf8Decode` models the strict
UTF-8 validation done by `decode_utf8` (rejecting continuation-byte starts,
overlong forms, surrogates and out-of-range values).  The `unwrap` panic is
an aborted run, i.e. `none`. -/

def encodeChar (c : Char) : List Nat :=
  let n := c.toNat
  if n < 0x80 then [n]
  else if n < 0x800 then [0xC0 + n / 64, 0x80 + n % 64]
  else if n < 0x10000 then [0xE0 + n / 4096, 0x80 + n / 64 % 64, 0x80 + n % 64]
  else [0xF0 + n / 262144, 0x80 + n / 4096 % 64, 0x80 + n / 64 % 64, 0x80 + n % 64]

def utf8Encode (s : Str) : List Nat := s.flatMap encodeChar

def isCont (b : Nat) : Prop := 0x80 ≤ b ∧ b < 0xC0

instance : DecidablePred isCont := fun b => by unfold isCont; infer_instance

def utf8DecodeOne (b : Nat) (rest : List Nat) : Option (Char × List Nat) :=
  if b < 0x80 then some (Char.ofNat b, rest)
  else if b < 0xC2 then none
  else if b < 0xE0 then
    match rest with
    | b1 :: rest' =>
      if isCont b1 then some (Char.ofNat ((b - 0xC0) * 64 + (b1 - 0x80)), rest') else none
    | [] => none
  else if b < 0xF0 then
    match rest with
    | b1 :: b2 :: rest' =>
      if isCont b1 ∧ isCont b2 ∧ (b = 0xE0 → 0xA0 ≤ b1) ∧ (b = 0xED → b1 < 0xA0) then
        some (Char.ofNat ((b - 0xE0) * 4096 + (b1 - 0x80) * 64 + (b2 - 0x80)), rest')
      else none
    | _ => none
  else if b < 0xF5 then
    match rest with
    | b1 :: b2 :: b3 :: rest' =>
      if isCont b1 ∧ isCont b2 ∧ isCont b3 ∧ (b = 0xF0 → 0x90 ≤ b1) ∧ (b = 0xF4 → b1 < 0x90) then
        some (Char.ofNat ((b - 0xF0) * 262144 + (b1 - 0x80) * 4096 +
          (b2 - 0x80) * 64 + (b3 - 0x80)), rest')
      else none
    | _ => none
  else none

def utf8DecodeGo : Nat → List Nat → Option Str
  | _, [] => some []
  | 0, _ :: _ => none
  | f + 1, b :: rest =>
    match utf8DecodeOne b rest with
    | some (c, rest') => (utf8DecodeGo f rest').map (fun l => c :: l)
    | none => none

def utf8Decode (bs : List Nat) : Option Str := utf8DecodeGo bs.length bs

theorem utf8DecodeOne_length {b : Nat} {rest : List Nat} {c : Char} {rest' : List Nat}
    (h : utf8DecodeOne b rest = some (c, rest')) : rest'.length ≤ rest.length := by
  unfold utf8DecodeOne at h
  repeat' split at h
  all_goals first
    | exact absurd h (by simp only [reduceCtorEq, not_false_eq_true])
    | (injection h with h'; injection h' with h1 h2; subst h2;
       first
         | exact Nat.le_refl _
         | (simp only [List.length_cons]; omega))

theorem utf8DecodeGo_congr :
    ∀ f₁ f₂ bs, bs.length ≤ f₁ → bs.length ≤ f₂ → utf8DecodeGo f₁ bs = utf8DecodeGo f₂ bs := by
  intro f₁
  induction f₁ with
  | zero =>
    intro f₂ bs h₁ _
    have : bs = [] := List.eq_nil_of_length_eq_zero (Nat.le_zero.mp h₁)
    subst this
    cases f₂ <;> rfl
  | succ f ih =>
    intro f₂ bs h₁ h₂
    cases bs with
    | nil => cases f₂ <;> rfl
    | cons b rest =>
      cases f₂ with
      | zero => simp at h₂
      | succ f₂' =>
        simp only [utf8DecodeGo]
        cases hone : utf8DecodeOne b rest with
        | none => rfl
        | some p =>
          obtain ⟨c, rest'⟩ := p
          have hr := utf8DecodeOne_length hone
          simp only [List.length_cons] at h₁ h₂
          dsimp only
          rw [ih f₂' rest' (by omega) (by omega)]

theorem utf8Decode_cons (b : Nat) (rest : List Nat) :
    utf8Decode (b :: rest) =
      match utf8DecodeOne b rest with
      | some (c, rest') => (utf8Decode rest').map (fun l => c :: l)
      | none => none := by
  simp only [utf8Decode, List.length_cons, utf8DecodeGo]
  cases hone : utf8DecodeOne b rest with
  | none => rfl
  | some p =>
    obtain ⟨c, rest'⟩ := p
    have hr := utf8DecodeOne_length hone
    dsimp only
    rw [utf8DecodeGo_congr rest.length rest'.length rest' (by omega) (by omega)]

theorem char_valid (c : Char) : c.toNat < 55296 ∨ (57343 < c.toNat ∧ c.toNat < 1114112) :=
  c.valid

theorem utf8DecodeOne_encodeChar (c : Char) (bs : List Nat) :
    ∃ tl, encodeChar c ++ bs = (encodeChar c).headI :: tl ∧
      utf8DecodeOne (encodeChar c).headI tl = some (c, bs) := by
  have hv := char_valid c
  by_cases h1 : c.toNat < 0x80
  · refine ⟨bs, by simp [encodeChar, if_pos h1], ?_⟩
    simp only [encodeChar, if_pos h1, List.headI]
    unfold utf8DecodeOne
    rw [if_pos h1, Char.ofNat_toNat]
  · by_cases h2 : c.toNat < 0x800
    · refine ⟨(0x80 + c.toNat % 64) :: bs, by simp [encodeChar, if_neg h1, if_pos h2], ?_⟩
      simp only [encodeChar, if_neg h1, if_pos h2, List.headI]
      unfold utf8DecodeOne
      rw [if_neg (by omega), if_neg (by omega), if_pos (by omega)]
      dsimp only
      have hc : isCont (0x80 + c.toNat % 64) := by unfold isCont; omega
      rw [if_pos hc]
      have harith : (0xC0 + c.toNat / 64 - 0xC0) * 64 + (0x80 + c.toNat % 64 - 0x80)
          = c.toNat := by omega
      rw [harith, Char.ofNat_toNat]
    · by_cases h3 : c.toNat < 0x10000
      · refine ⟨(0x80 + c.toNat / 64 % 64) :: (0x80 + c.toNat % 64) :: bs,
          by simp [encodeChar, if_neg h1, if_neg h2, if_pos h3], ?_⟩
        simp only [encodeChar, if_neg h1, if_neg h2, if_pos h3, List.headI]
        unfold utf8DecodeOne
        rw [if_neg (by omega), if_neg (by omega), if_neg (by omega), if_pos (by omega)]
        dsimp only
        have hc : isCont (0x80 + c.toNat / 64 % 64) ∧ isCont (0x80 + c.toNat % 64) ∧
            (0xE0 + c.toNat / 4096 = 0xE0 → 0xA0 ≤ 0x80 + c.toNat / 64 % 64) ∧
            (0xE0 + c.toNat / 4096 = 0xED → 0x80 + c.toNat / 64 % 64 < 0xA0) := by
          refine ⟨by unfold isCont; omega, by unfold isCont; omega, ?_, ?_⟩
          all_goals intro h; omega
        rw [if_pos hc]
        have harith : (0xE0 + c.toNat / 4096 - 0xE0) * 4096 +
            (0x80 + c.toNat / 64 % 64 - 0x80) * 64 + (0x80 + c.toNat % 64 - 0x80)
            = c.toNat := by omega
        rw [harith, Char.ofNat_toNat]
      · refine ⟨(0x80 + c.toNat / 4096 % 64) :: (0x80 + c.toNat / 64 % 64) ::
          (0x80 + c.toNat % 64) :: bs,
          by simp [encodeChar, if_neg h1, if_neg h2, if_neg h3], ?_⟩
        simp only [encodeChar, if_neg h1, if_neg h2, if_neg h3, List.headI]
        unfold utf8DecodeOne
        rw [if_neg (by omega), if_neg (by omega), if_neg (by omega), if_neg (by omega),
          if_pos (by omega)]
        dsimp only
        have hc : isCont (0x80 + c.toNat / 4096 % 64) ∧ isCont (0x80 + c.toNat / 64 % 64) ∧
            isCont (0x80 + c.toNat % 64) ∧
            (0xF0 + c.toNat / 262144 = 0xF0 → 0x90 ≤ 0x80 + c.toNat / 4096 % 64) ∧
            (0xF0 + c.toNat / 262144 = 0xF4 → 0x80 + c.toNat / 4096 % 64 < 0x90) := by
          refine ⟨by unfold isCont; omega, by unfold isCont; omega,
            by unfold isCont; omega, ?_, ?_⟩
          all_goals intro h; omega
        rw [if_pos hc]
        have harith : (0xF0 + c.toNat / 262144 - 0xF0) * 262144 +
            (0x80 + c.toNat / 4096 % 64 - 0x80) * 4096 +
            (0x80 + c.toNat / 64 % 64 - 0x80) * 64 + (0x80 + c.toNat % 64 - 0x80)
            = c.toNat := by omega
        rw [harith, Char.ofNat_toNat]

theorem utf8_roundtrip : ∀ s : Str, utf8Decode (utf8Encode s) = some s := by
  intro s
  induction s with
  | nil => rfl
  | cons c cs ih =>
    have h : utf8Encode (c :: cs) = encodeChar c ++ utf8Encode cs := by
      simp [utf8Encode]
    obtain ⟨tl, heq, hone⟩ := utf8DecodeOne_encodeChar c (utf8Encode cs)
    rw [h, heq, utf8Decode_cons, hone]
    dsimp only
    rw [ih]
    rfl


/-- Value of an ASCII hex-digit byte. -/
def hexVal (b : Nat) : Option Nat :=
  if 0x30 ≤ b ∧ b ≤ 0x39 then some (b - 0x30)
  else if 0x41 ≤ b ∧ b ≤ 0x46 then some (b - 0x41 + 10)
  else if 0x61 ≤ b ∧ b ≤ 0x66 then some (b - 0x61 + 10)
  else none

/-- One step of percent decoding: a `%` (byte 37) followed by two hex digits
decodes to one byte; any other `%` is passed through literally (the two
following bytes are reprocessed). -/
def percentStep (b : Nat) (rest : List Nat) : Nat × List Nat :=
  if b = 37 then
    match rest with
    | h1 :: h2 :: rest' =>
      match hexVal h1, hexVal h2 with
      | some v1, some v2 => (16 * v1 + v2, rest')
      | _, _ => (37, rest)
    | _ => (37, rest)
  else (b, rest)

/-- Fuelled driver for `percentDecode`. -/
def percentDecodeGo : Nat → List Nat → List Nat
  | _, [] => []
  | 0, l => l
  | f + 1, b :: rest =>
    let p := percentStep b rest
    p.1 :: percentDecodeGo f p.2

/-- Rust `percent_encoding::percent_decode` over a byte list. -/
def percentDecode (bs : List Nat) : List Nat := percentDecodeGo bs.length bs

theorem percentStep_length (b : Nat) (rest : List Nat) :
    (percentStep b rest).2.length ≤ rest.length := by
  unfold percentStep
  repeat' split
  all_goals simp only [List.length_cons]
  all_goals omega

theorem percentDecodeGo_congr :
    ∀ f₁ f₂ bs, bs.length ≤ f₁ → bs.length ≤ f₂ →
      percentDecodeGo f₁ bs = percentDecodeGo f₂ bs := by
  intro f₁
  induction f₁ with
  | zero =>
    intro f₂ bs h₁ _
    have : bs = [] := List.eq_nil_of_length_eq_zero (Nat.le_zero.mp h₁)
    subst this
    cases f₂ <;> rfl
  | succ f ih =>
    intro f₂ bs h₁ h₂
    cases bs with
    | nil => cases f₂ <;> rfl
    | cons b rest =>
      cases f₂ with
      | zero => simp at h₂
      | succ f₂' =>
        simp only [percentDecodeGo]
        have hl := percentStep_length b rest
        simp only [List.length_cons] at h₁ h₂
        rw [ih f₂' (percentStep b rest).2 (by omega) (by omega)]

theorem percentDecode_cons (b : Nat) (rest : List Nat) :
    percentDecode (b :: rest) =
      (percentStep b rest).1 :: percentDecode (percentStep b rest).2 := by
  simp only [percentDecode, List.length_cons, percentDecodeGo]
  have hl := percentStep_length b rest
  rw [percentDecodeGo_congr rest.length (percentStep b rest).2.length _ (by omega) (by omega)]

theorem percentStep_no_percent {b : Nat} (hb : b ≠ 37) (rest : List Nat) :
    percentStep b rest = (b, rest) := by
  unfold percentStep
  rw [if_neg hb]

/-- Percent decoding is the identity on byte lists without `%`. -/
theorem percentDecode_no_percent :
    ∀ n (bs : List Nat), bs.length ≤ n → (∀ b ∈ bs, b ≠ 37) → percentDecode bs = bs := by
  intro n
  induction n with
  | zero =>
    intro bs hlen _
    have : bs = [] := List.eq_nil_of_length_eq_zero (Nat.le_zero.mp hlen)
    subst this; rfl
  | succ n ih =>
    intro bs hlen hmem
    cases bs with
    | nil => rfl
    | cons b rest =>
      rw [percentDecode_cons, percentStep_no_percent (hmem b (by simp)) rest]
      simp only [List.length_cons] at hlen
      rw [ih rest (by omega) (fun x hx => hmem x (List.mem_cons_of_mem _ hx))]

/-! ## The slug sanitizer `make_ref_web_safe` -/

/-- The fixed replacement table `TEXT_REPLACEMENTS` from the source, in
source order. -/
def TEXT_REPLACEMENTS : List (Char × Str) :=
  [ ('.', str "dot"), ('<', str "greater"), ('>', str "less"), ('%', str "modulo"),
    ('?', str "query"), ('&', str "amp"), ('~', str "tilde"), ('|', str "vert"),
    ('!', str "exclaim"), (':', str "colon"), ('*', str "asterisk"), ('^', str "caret"),
    ('=', str "equals"), ('+', str "plus"), ('(', str "leftparen"), (')', str "rightparen"),
    ('[', str "leftsquare"), (']', str "rightsquare") ]

/-- The opening curly brace (written via its code point to keep it out of
string literals). -/
def lbrace : Char := Char.ofNat 123

/-- The closing curly brace. -/
def rbrace : Char := Char.ofNat 125

/-- `CLEAN_REGEX.replace_all(&path, "")` for the class `[` `{` `}` `]`:
every curly brace is removed. -/
def cleanBraces (s : Str) : Str := s.filter (fun c => decide (c ≠ lbrace ∧ c ≠ rbrace))

/-- The pure character-rewriting part of `make_ref_web_safe`, applied after
percent decoding (lines 516-529 of `main.rs`). -/
def sanitizeCore (s : Str) : Str :=
  let s1 := TEXT_REPLACEMENTS.foldl (fun acc r => replaceList [r.1] r.2 acc) s
  let s2 := replaceList (str "//") (str "/slash") s1
  let s3 := replaceList (str "/index") (str "/index_page") s2
  let s4 := if containsSub (str "operator") s3 then replaceList ['-'] (str "minus") s3 else s3
  cleanBraces s4

/-- `make_ref_web_safe`: percent-decode the path bytes, validate UTF-8
(`unwrap` = abort = `none`), then apply the replacement table, the `//`,
`/index` and `operator`-hyphen rules, and strip curly braces. -/
def make_ref_web_safe (dirty_path : Str) : Option Str :=
  (utf8Decode (percentDecode (utf8Encode dirty_path))).map sanitizeCore


/-! ## Facts about the sanitizer needed for the idempotence analysis -/

theorem infix_one_mem {c : Char} {p : Str} : [c] <:+: p ↔ c ∈ p := by
  constructor
  · intro h
    exact List.singleton_sublist.mp h.sublist
  · intro h
    obtain ⟨s, t, rfl⟩ := List.append_of_mem h
    exact ⟨s, t, by simp⟩

/-- A fold of single-character replacements over characters absent from the
input is the identity. -/
theorem foldl_replace_id {p : Str} :
    ∀ tbl : List (Char × Str), (∀ r ∈ tbl, r.1 ∉ p) →
      tbl.foldl (fun acc r => replaceList [r.1] r.2 acc) p = p := by
  intro tbl
  induction tbl with
  | nil => intro _; rfl
  | cons r tbl' ih =>
    intro h
    simp only [List.foldl_cons]
    have hno : ¬ ([r.1] : Str) <:+: p := fun hx =>
      h r (List.mem_cons_self _ _) (infix_one_mem.mp hx)
    rw [replaceList_no_occ p.length p (Nat.le_refl _) hno]
    exact ih (fun r' hr' => h r' (List.mem_cons_of_mem _ hr'))

/-- Incomparability is decidable. -/
instance (x y : Str) : Decidable (Incomp x y) := by unfold Incomp; infer_instance

/-- The output of the `//` → `/slash` replacement never contains `//`
(core version with the pattern written as an explicit list). -/
theorem repSlash_no_dslash_aux :
    ∀ n (s : Str), s.length ≤ n →
      ¬ ['/', '/'] <:+: replaceList ['/', '/'] (str "/slash") s := by
  intro n
  induction n with
  | zero =>
    intro s hs hocc
    have : s = [] := List.eq_nil_of_length_eq_zero (Nat.le_zero.mp hs)
    subst this
    simp only [replaceList_nil] at hocc
    exact absurd (List.eq_nil_of_infix_nil hocc) (by decide)
  | succ n ih =>
    intro s hs hocc
    cases s with
    | nil =>
      simp only [replaceList_nil] at hocc
      exact absurd (List.eq_nil_of_infix_nil hocc) (by decide)
    | cons c cs =>
      have hlen : cs.length ≤ n := by simp only [List.length_cons] at hs; omega
      by_cases h : (['/', '/'] : Str) ≠ [] ∧ List.isPrefixOf ['/', '/'] (c :: cs)
      · rw [replaceList_cons_pos _ h.1 h.2] at hocc
        rcases infix_append_split _ hocc with h1 | ⟨a₂, ha₂, hne₂, hp₂⟩
        · have hdlen : ((c :: cs).drop (['/', '/'] : Str).length).length ≤ n := by
            simp only [List.length_drop, List.length_cons]
            simp only [List.length_cons] at hs
            omega
          exact ih _ hdlen h1
        · have hinc : Incomp ['/', '/'] a₂ :=
            (by decide : ∀ x ∈ (str "/slash").tails, x ≠ [] → Incomp ['/', '/'] x)
              a₂ ((List.mem_tails _ _).mpr ha₂) hne₂
          exact not_prefix_append_of_incomp hinc hp₂
      · rw [replaceList_cons_neg _ h] at hocc
        rcases List.infix_cons_iff.mp hocc with h1 | h1
        · rw [List.cons_prefix_cons] at h1
          obtain ⟨hc, h1'⟩ := h1
          subst hc
          cases cs with
          | nil =>
            simp only [replaceList_nil] at h1'
            exact absurd (List.prefix_nil.mp h1') (by decide)
          | cons d ds =>
            have hd : d ≠ '/' := by
              intro hd
              subst hd
              exact h ⟨by decide, isPrefixOf_eq_true.mpr
                (List.cons_prefix_cons.mpr ⟨rfl, List.cons_prefix_cons.mpr
                  ⟨rfl, nil_isPrefix⟩⟩)⟩
            have hneg : ¬ ((['/', '/'] : Str) ≠ [] ∧ List.isPrefixOf ['/', '/'] (d :: ds)) := by
              rintro ⟨_, hpre⟩
              have hx := isPrefixOf_eq_true.mp hpre
              rw [List.cons_prefix_cons] at hx
              exact hd hx.1.symm
            rw [replaceList_cons_neg _ hneg] at h1'
            rw [List.cons_prefix_cons] at h1'
            exact hd h1'.1.symm
        · exact ih _ hlen h1

/-- The output of the `//` → `/slash` replacement never contains `//`. -/
theorem repSlash_no_dslash (s : Str) :
    ¬ (str "//") <:+: replaceList (str "//") (str "/slash") s := by
  rw [show (str "//") = ['/', '/'] from rfl]
  exact repSlash_no_dslash_aux s.length s (Nat.le_refl _)

/-- The reserved character set of the slug sanitizer: the characters the
sanitizer rewrites unconditionally (the replacement table plus the curly
braces it strips). -/
def reservedChars : Str := TEXT_REPLACEMENTS.map Prod.fst ++ [lbrace, rbrace]

theorem mem_encodeChar {c : Char} {b : Nat} (h : b ∈ encodeChar c) :
    b = c.toNat ∨ 0x80 ≤ b := by
  simp only [encodeChar] at h
  by_cases h1 : c.toNat < 0x80
  · rw [if_pos h1] at h
    simp only [List.mem_singleton] at h
    exact Or.inl h
  · rw [if_neg h1] at h
    by_cases h2 : c.toNat < 0x800
    · rw [if_pos h2] at h
      simp only [List.mem_cons, List.not_mem_nil, or_false] at h
      right
      rcases h with h | h <;> omega
    · rw [if_neg h2] at h
      by_cases h3 : c.toNat < 0x10000
      · rw [if_pos h3] at h
        simp only [List.mem_cons, List.not_mem_nil, or_false] at h
        right
        rcases h with h | h | h <;> omega
      · rw [if_neg h3] at h
        simp only [List.mem_cons, List.not_mem_nil, or_false] at h
        right
        rcases h with h | h | h | h <;> omega

theorem utf8Encode_no37 {p : Str} (hp : '%' ∉ p) : ∀ b ∈ utf8Encode p, b ≠ 37 := by
  intro b hb h37
  obtain ⟨c, hc, hbc⟩ := List.mem_flatMap.mp hb
  rcases mem_encodeChar hbc with h | h
  · have hctn : c.toNat = 37 := by omega
    have : c = '%' := by
      have h1 : c = Char.ofNat c.toNat := (Char.ofNat_toNat c).symm
      rw [hctn] at h1
      rw [h1]
    exact hp (this ▸ hc)
  · omega

/-- If the path has no `%`, the decode step of `make_ref_web_safe` succeeds
and returns the path unchanged. -/
theorem no_percent_decode {p : Str} (hp : '%' ∉ p) :
    utf8Decode (percentDecode (utf8Encode p)) = some p := by
  rw [percentDecode_no_percent (utf8Encode p).length _ (Nat.le_refl _) (utf8Encode_no37 hp)]
  exact utf8_roundtrip p

/-- Core of the idempotence analysis: on a path free of reserved characters
and of the substring `/index`, one pass of the character-rewriting pipeline
reaches a fixpoint. -/
theorem sanitizeCore_fix {p : Str} (hres : ∀ c ∈ p, c ∉ reservedChars)
    (hidx : ¬ (str "/index") <:+: p) :
    (∀ c ∈ sanitizeCore p, c ∉ reservedChars) ∧
      sanitizeCore (sanitizeCore p) = sanitizeCore p := by
  have htbl : TEXT_REPLACEMENTS.foldl (fun acc r => replaceList [r.1] r.2 acc) p = p := by
    apply foldl_replace_id
    intro r hr hmem
    exact hres r.1 hmem (List.mem_append_left _ (List.mem_map_of_mem _ hr))
  have h2idx : ¬ (str "/index") <:+: replaceList (str "//") (str "/slash") p := by
    refine not_infix_replaceList (by decide)
      (fun t' ht' hne =>
        (by decide : ∀ x ∈ (str "/index").tails, x ≠ [] → Incomp x (str "/slash")) t' ht' hne)
      (fun a₂ ha₂ hne =>
        (by decide : ∀ x ∈ (str "/slash").tails, x ≠ [] → Incomp (str "/index") x) a₂ ha₂ hne)
      p.length p (Nat.le_refl _) hidx
  have h2slash : ¬ (str "//") <:+: replaceList (str "//") (str "/slash") p :=
    repSlash_no_dslash p
  have h2chars : ∀ c ∈ replaceList (str "//") (str "/slash") p, c ∉ reservedChars := by
    intro c hc
    rcases mem_replaceList p.length p (Nat.le_refl _) hc with h | h
    · exact hres c h
    · exact (by decide : ∀ c ∈ str "/slash", c ∉ reservedChars) c h
  have h3 : replaceList (str "/index") (str "/index_page")
      (replaceList (str "//") (str "/slash") p) = replaceList (str "//") (str "/slash") p :=
    replaceList_no_occ _ _ (Nat.le_refl _) h2idx
  -- abbreviation for the intermediate string
  generalize hs2 : replaceList (str "//") (str "/slash") p = s2 at h2idx h2slash h2chars h3
  have hcore : sanitizeCore p =
      cleanBraces (if containsSub (str "operator") s2 then
        replaceList ['-'] (str "minus") s2 else s2) := by
    simp only [sanitizeCore, htbl, hs2, h3]
  -- a second pass over a string with these properties is the identity
  have second_pass : ∀ q : Str, (∀ c ∈ q, c ∉ reservedChars) →
      ¬ (str "//") <:+: q → ¬ (str "/index") <:+: q →
      (containsSub (str "operator") q = true → ('-' : Char) ∉ q) →
      sanitizeCore q = q := by
    intro q hqchars hqslash hqidx hqminus
    have hqtbl : TEXT_REPLACEMENTS.foldl (fun acc r => replaceList [r.1] r.2 acc) q = q := by
      apply foldl_replace_id
      intro r hr hmem
      exact hqchars r.1 hmem (List.mem_append_left _ (List.mem_map_of_mem _ hr))
    have hq2 : replaceList (str "//") (str "/slash") q = q :=
      replaceList_no_occ _ _ (Nat.le_refl _) hqslash
    have hq3 : replaceList (str "/index") (str "/index_page") q = q :=
      replaceList_no_occ _ _ (Nat.le_refl _) hqidx
    have hqbraces : cleanBraces q = q := by
      unfold cleanBraces
      rw [List.filter_eq_self]
      intro c hc
      have h1 := hqchars c hc
      have h2 : lbrace ∈ reservedChars := by decide
      have h3' : rbrace ∈ reservedChars := by decide
      simp only [decide_eq_true_eq]
      constructor
      · intro he; exact h1 (he ▸ h2)
      · intro he; exact h1 (he ▸ h3')
    simp only [sanitizeCore]
    rw [hqtbl, hq2, hq3]
    cases hop : containsSub (str "operator") q with
    | false => simpa using hqbraces
    | true =>
      have hmr : replaceList ['-'] (str "minus") q = q := by
        refine replaceList_no_occ _ _ (Nat.le_refl _) ?_
        rw [infix_one_mem]
        exact hqminus hop
      simpa [hmr] using hqbraces
  -- now discharge the two branches of the first pass
  rw [hcore]
  cases hop : containsSub (str "operator") s2 with
  | false =>
    simp only [Bool.false_eq_true, if_false]
    have hbr : cleanBraces s2 = s2 := by
      unfold cleanBraces
      rw [List.filter_eq_self]
      intro c hc
      have h1 := h2chars c hc
      simp only [decide_eq_true_eq]
      exact ⟨fun he => h1 (he ▸ (by decide : lbrace ∈ reservedChars)),
             fun he => h1 (he ▸ (by decide : rbrace ∈ reservedChars))⟩
    rw [hbr]
    refine ⟨h2chars, ?_⟩
    refine second_pass s2 h2chars h2slash h2idx ?_
    intro hcontra
    rw [hop] at hcontra
    exact absurd hcontra (by simp)
  | true =>
    simp only [if_true]
    set q := replaceList ['-'] (str "minus") s2 with hqdef
    have hqchars : ∀ c ∈ q, c ∉ reservedChars := by
      intro c hc
      rcases mem_replaceList s2.length s2 (Nat.le_refl _) hc with h | h
      · exact h2chars c h
      · exact (by decide : ∀ c ∈ str "minus", c ∉ reservedChars) c h
    have hqslash : ¬ (str "//") <:+: q := by
      refine not_infix_replaceList (by decide)
        (fun t' ht' hne =>
          (by decide : ∀ x ∈ (str "//").tails, x ≠ [] → Incomp x (str "minus")) t' ht' hne)
        (fun a₂ ha₂ hne =>
          (by decide : ∀ x ∈ (str "minus").tails, x ≠ [] → Incomp (str "//") x) a₂ ha₂ hne)
        s2.length s2 (Nat.le_refl _) h2slash
    have hqidx : ¬ (str "/index") <:+: q := by
      refine not_infix_replaceList (by decide)
        (fun t' ht' hne =>
          (by decide : ∀ x ∈ (str "/index").tails, x ≠ [] → Incomp x (str "minus")) t' ht' hne)
        (fun a₂ ha₂ hne =>
          (by decide : ∀ x ∈ (str "minus").tails, x ≠ [] → Incomp (str "/index") x) a₂ ha₂ hne)
        s2.length s2 (Nat.le_refl _) h2idx
    have hqminus : ('-' : Char) ∉ q :=
      replaceList_single_removes (by decide) s2.length s2 (Nat.le_refl _)
    have hbr : cleanBraces q = q := by
      unfold cleanBraces
      rw [List.filter_eq_self]
      intro c hc
      have h1 := hqchars c hc
      simp only [decide_eq_true_eq]
      exact ⟨fun he => h1 (he ▸ (by decide : lbrace ∈ reservedChars)),
             fun he => h1 (he ▸ (by decide : rbrace ∈ reservedChars))⟩
    rw [hbr]
    exact ⟨hqchars, second_pass q hqchars hqslash hqidx (fun _ => hqminus)⟩

/-! ## Claims C5 and C10 -/

/-- Claim C5 (as stated, refuted): the sanitizer is claimed idempotent on
every string free of the reserved character set.  The input `/index` is free
of reserved characters, yet sanitizing once gives `/index_page` and
sanitizing again gives `/index_page_page`. -/
theorem claim_C5_cex :
    (∀ c ∈ str "/index", c ∉ reservedChars) ∧
      make_ref_web_safe (str "/index") = some (str "/index_page") ∧
      (make_ref_web_safe (str "/index")).bind make_ref_web_safe ≠
        make_ref_web_safe (str "/index") := by
  refine ⟨by decide, by decide, by decide⟩

/-- Claim C5 (amended): the slug sanitizer is deterministic (it is a pure
function: equal inputs give equal outputs), and it is idempotent on every
string that is free of the reserved character set and does not contain the
substring `/index` (the `/index` → `/index_page` rule re-fires on its own
output, which is what the counterexample exhibits). -/
theorem claim_C5 :
    (∀ p q : Str, p = q → make_ref_web_safe p = make_ref_web_safe q) ∧
    ∀ p : Str, (∀ c ∈ p, c ∉ reservedChars) → ¬ (str "/index") <:+: p →
      (make_ref_web_safe p).bind make_ref_web_safe = make_ref_web_safe p := by
  constructor
  · intro p q h
    rw [h]
  · intro p hres hidx
    have hp : '%' ∉ p := fun hmem => hres '%' hmem (by decide)
    have hA : make_ref_web_safe p = some (sanitizeCore p) := by
      unfold make_ref_web_safe
      rw [no_percent_decode hp]
      rfl
    obtain ⟨hqchars, hqfix⟩ := sanitizeCore_fix hres hidx
    have hq : '%' ∉ sanitizeCore p := fun hmem => hqchars '%' hmem (by decide)
    have hB : make_ref_web_safe (sanitizeCore p) = some (sanitizeCore (sanitizeCore p)) := by
      unfold make_ref_web_safe
      rw [no_percent_decode hq]
      rfl
    rw [hA, Option.some_bind, hB, hqfix]

/-- Witness for claim C5: a concrete path satisfying the hypotheses. -/
theorem claim_C5_witness :
    (∀ c ∈ str "/datum/proc/foo", c ∉ reservedChars) ∧
      ¬ (str "/index") <:+: str "/datum/proc/foo" ∧
      (make_ref_web_safe (str "/datum/proc/foo")).bind make_ref_web_safe =
        make_ref_web_safe (str "/datum/proc/foo") :=
  ⟨by decide, by decide, claim_C5.2 (str "/datum/proc/foo") (by decide) (by decide)⟩

/-- Claim C10 (confirmed): the decode step is the only partial step of the
sanitizer: whenever percent-decoding the path's bytes yields valid UTF-8 the
sanitizer returns a value, and on `%FF` (whose decoded byte 0xFF is not valid
UTF-8) the run aborts (`none`, the `unwrap` panic). -/
theorem claim_C10 :
    (∀ p : Str, (utf8Decode (percentDecode (utf8Encode p))).isSome = true →
      (make_ref_web_safe p).isSome = true) ∧
    make_ref_web_safe (str "%FF") = none := by
  constructor
  · intro p h
    unfold make_ref_web_safe
    cases hd : utf8Decode (percentDecode (utf8Encode p)) with
    | none => rw [hd] at h; simp at h
    | some q => rfl
  · decide

/-- Witness for claim C10: a path with a valid percent escape decodes and
sanitizes successfully. -/
theorem claim_C10_witness :
    (utf8Decode (percentDecode (utf8Encode (str "a%20b")))).isSome = true ∧
      (make_ref_web_safe (str "a%20b")).isSome = true :=
  ⟨by decide, claim_C10.1 (str "a%20b") (by decide)⟩

/-! ## The text escaper: `escape_dollars_outside_code` -/

/-- One candidate closing position for `find_closing_backticks`: the run of
`count` backticks occurs at index `i` of `s`, the character before it (if
any) is not a backtick, and the character after it (if any) is not a
backtick. -/
def isClose (s : Str) (count i : Nat) : Bool :=
  (List.replicate count '`').isPrefixOf (s.drop i) &&
  (i == 0 || !((s.take i).getLast? == some '`')) &&
  (decide (s.length ≤ i + count) || !((s.drop (i + count)).head? == some '`'))

/-- Scan indices `i, i+1, ...` for the first valid closing position. -/
def findClosingFrom (s : Str) (count : Nat) : Nat → Nat → Option Nat
  | 0, _ => none
  | f + 1, i =>
    if s.length ≤ i then none
    else if isClose s count i then some i
    else findClosingFrom s count f (i + 1)

/-- `find_closing_backticks` from the source: find the first occurrence of a
run of exactly `count` backticks not adjacent to further backticks. -/
def find_closing_backticks (s : Str) (count : Nat) : Option Nat :=
  findClosingFrom s count (s.length + 1) 0

/-- Fuelled core of `escape_dollars_outside_code`. -/
def escapeDollarsGo : Nat → Str → Str
  | _, [] => []
  | 0, s => s
  | f + 1, c :: cs =>
    if c = '`' then
      let k := ((c :: cs).takeWhile (fun x => x = '`')).length
      let rest := (c :: cs).drop k
      match find_closing_backticks rest k with
      | some pos =>
        (c :: cs).take k ++ rest.take (pos + k) ++ escapeDollarsGo f (rest.drop (pos + k))
      | none => (c :: cs).take k ++ escapeDollarsGo f rest
    else if c = '$' then '\\' :: '$' :: escapeDollarsGo f cs
    else c :: escapeDollarsGo f cs

/-- `escape_dollars_outside_code` from the source: escape `$` as `\$`
outside backtick code spans, copying spans (opener, content, closer)
verbatim; an opener with no closer is copied and scanning continues after
it. -/
def escape_dollars_outside_code (s : Str) : Str := escapeDollarsGo s.length s

theorem takeWhile_backtick_len_pos (cs : Str) :
    1 ≤ (('`' :: cs).takeWhile (fun x => x = '`')).length := by
  simp [List.takeWhile_cons]

theorem escapeDollarsGo_congr :
    ∀ f₁ f₂ s, s.length ≤ f₁ → s.length ≤ f₂ → escapeDollarsGo f₁ s = escapeDollarsGo f₂ s := by
  intro f₁
  induction f₁ with
  | zero =>
    intro f₂ s h₁ _
    have : s = [] := List.eq_nil_of_length_eq_zero (Nat.le_zero.mp h₁)
    subst this
    cases f₂ <;> rfl
  | succ f ih =>
    intro f₂ s h₁ h₂
    cases s with
    | nil => cases f₂ <;> rfl
    | cons c cs =>
      cases f₂ with
      | zero => simp at h₂
      | succ f₂' =>
        simp only [escapeDollarsGo]
        by_cases hc : c = '`'
        · rw [if_pos hc, if_pos hc]
          have hk : 1 ≤ ((c :: cs).takeWhile (fun x => x = '`')).length := by
            subst hc; exact takeWhile_backtick_len_pos cs
          have hklen : ((c :: cs).takeWhile (fun x => x = '`')).length ≤ cs.length + 1 := by
            have := takeWhile_len_le (fun x => x = '`') (c :: cs)
            simpa using this
          simp only [List.length_cons] at h₁ h₂
          cases hfind : find_closing_backticks
              ((c :: cs).drop ((c :: cs).takeWhile (fun x => x = '`')).length)
              ((c :: cs).takeWhile (fun x => x = '`')).length with
          | some pos =>
            dsimp only
            congr 1
            rw [ih f₂' _ ?hl1 ?hl2]
            case hl1 =>
              simp only [List.length_drop, List.length_cons]
              omega
            case hl2 =>
              simp only [List.length_drop, List.length_cons]
              omega
          | none =>
            dsimp only
            congr 1
            rw [ih f₂' _ ?hl1 ?hl2]
            case hl1 =>
              simp only [List.length_drop, List.length_cons]
              omega
            case hl2 =>
              simp only [List.length_drop, List.length_cons]
              omega
        · rw [if_neg hc, if_neg hc]
          simp only [List.length_cons] at h₁ h₂
          by_cases hd : c = '$'
          · rw [if_pos hd, if_pos hd, ih f₂' cs (by omega) (by omega)]
          · rw [if_neg hd, if_neg hd, ih f₂' cs (by omega) (by omega)]



theorem escape_cons_other {c : Char} (hc : c ≠ '`') (cs : Str) :
    escape_dollars_outside_code (c :: cs) =
      if c = '$' then '\\' :: '$' :: escape_dollars_outside_code cs
      else c :: escape_dollars_outside_code cs := by
  simp only [escape_dollars_outside_code, List.length_cons, escapeDollarsGo, if_neg hc]

theorem isClose_at_split (b c : Str) (hb : '`' ∉ b) (hc : c.head? ≠ some '`') :
    isClose (b ++ '`' :: c) 1 b.length = true := by
  unfold isClose
  have h1 : (b ++ '`' :: c).drop b.length = '`' :: c := List.drop_left b _
  have h2 : (b ++ '`' :: c).take b.length = b := List.take_left b _
  have h3 : (b ++ '`' :: c).drop (b.length + 1) = c := by
    have := @List.drop_append Char b ('`' :: c) 1
    simpa using this
  rw [h1, h2, h3]
  simp only [List.replicate, List.isPrefixOf, Bool.and_eq_true, beq_iff_eq]
  refine ⟨⟨by simp [List.isPrefixOf], ?_⟩, ?_⟩
  · cases hbn : b.getLast? with
    | none => simp
    | some x =>
      have hx : x ∈ b := by
        rcases @List.mem_getLast?_eq_getLast Char b x (by rw [hbn]; rfl) with ⟨hh, hxx⟩
        rw [hxx]
        exact List.getLast_mem hh
      have : x ≠ '`' := fun he => hb (he ▸ hx)
      simp [this]
  · cases hcn : c.head? with
    | none => simp
    | some x =>
      have : x ≠ '`' := fun he => hc (by rw [hcn, he])
      simp [this]

theorem isClose_lt_split (b c : Str) (hb : '`' ∉ b) {j : Nat} (hj : j < b.length) :
    isClose (b ++ '`' :: c) 1 j = false := by
  have h1 : (b ++ '`' :: c).drop j = b.drop j ++ '`' :: c :=
    List.drop_append_of_le_length (by omega)
  have h2 : b.drop j = b[j] :: b.drop (j + 1) := List.drop_eq_getElem_cons hj
  have h3 : b[j] ≠ '`' := fun he => hb (he ▸ b.getElem_mem hj)
  have hA : (List.replicate 1 '`').isPrefixOf ((b ++ '`' :: c).drop j) = false := by
    rw [h1, h2]
    simp only [List.cons_append, List.replicate, List.isPrefixOf, Bool.and_eq_false_iff]
    left
    simp [Ne.symm h3]
  unfold isClose
  rw [hA]
  simp

theorem findClosingFrom_some {s : Str} {count m : Nat}
    (hm : isClose s count m = true) (hmlt : m < s.length) :
    ∀ f i, s.length + 1 - i ≤ f → i ≤ m →
      (∀ j, i ≤ j → j < m → isClose s count j = false) →
      findClosingFrom s count f i = some m := by
  intro f
  induction f with
  | zero =>
    intro i hf hi _
    omega
  | succ f ih =>
    intro i hf hi hprev
    unfold findClosingFrom
    rw [if_neg (by omega)]
    by_cases he : i = m
    · subst he
      rw [hm]
      simp
    · have hfalse : isClose s count i = false := hprev i (Nat.le_refl _) (by omega)
      rw [hfalse]
      simp only [Bool.false_eq_true, if_false]
      exact ih (i + 1) (by omega) (by omega) (fun j hj hjm => hprev j (by omega) hjm)

theorem find_closing_span (b c : Str) (hb : '`' ∉ b) (hc : c.head? ≠ some '`') :
    find_closing_backticks (b ++ '`' :: c) 1 = some b.length := by
  unfold find_closing_backticks
  exact findClosingFrom_some (isClose_at_split b c hb hc)
    (by simp only [List.length_append, List.length_cons]; omega)
    _ 0 (by omega) (by omega)
    (fun j _ hj => isClose_lt_split b c hb hj)

theorem escape_no_backtick : ∀ s : Str, '`' ∉ s →
    escape_dollars_outside_code s =
      s.flatMap (fun ch => if ch = '$' then ['\\', '$'] else [ch]) := by
  intro s
  induction s with
  | nil => intro _; rfl
  | cons c cs ih =>
    intro h
    have hc : c ≠ '`' := fun he => h (he ▸ List.mem_cons_self _ _)
    rw [escape_cons_other hc]
    have hrec := ih (fun hm => h (List.mem_cons_of_mem _ hm))
    by_cases hd : c = '$'
    · subst hd
      rw [if_pos rfl, hrec]
      simp
    · rw [if_neg hd, hrec]
      simp [hd]

theorem escape_span (a b c : Str) (ha : '`' ∉ a) (hb : '`' ∉ b) (hbne : b ≠ [])
    (hch : c.head? ≠ some '`') :
    escape_dollars_outside_code (a ++ '`' :: b ++ '`' :: c) =
      a.flatMap (fun ch => if ch = '$' then ['\\', '$'] else [ch]) ++
        '`' :: b ++ '`' :: escape_dollars_outside_code c := by
  induction a with
  | nil =>
    simp only [List.nil_append, List.flatMap_nil]
    obtain ⟨d, b', rfl⟩ : ∃ d b', b = d :: b' := by
      cases b with
      | nil => exact absurd rfl hbne
      | cons d b' => exact ⟨d, b', rfl⟩
    have hd : d ≠ '`' := fun he => hb (he ▸ List.mem_cons_self _ _)
    -- unfold the backtick branch
    show escapeDollarsGo ('`' :: (d :: b' ++ '`' :: c)).length ('`' :: (d :: b' ++ '`' :: c)) = _
    simp only [List.length_cons, escapeDollarsGo, if_pos rfl]
    have hk : (('`' :: (d :: b' ++ '`' :: c)).takeWhile (fun x => x = '`')).length = 1 := by
      simp [List.takeWhile_cons, hd]
    rw [hk]
    have hdrop : ('`' :: (d :: b' ++ '`' :: c)).drop 1 = d :: b' ++ '`' :: c := rfl
    have htake : ('`' :: (d :: b' ++ '`' :: c)).take 1 = ['`'] := rfl
    rw [hdrop, htake, find_closing_span (d :: b') c hb hch]
    dsimp only
    have htake2 : (d :: b' ++ '`' :: c).take ((d :: b').length + 1) = d :: b' ++ ['`'] := by
      have := @List.take_append Char (d :: b') ('`' :: c) 1
      simpa using this
    have hdrop2 : (d :: b' ++ '`' :: c).drop ((d :: b').length + 1) = c := by
      have := @List.drop_append Char (d :: b') ('`' :: c) 1
      simpa using this
    rw [htake2, hdrop2]
    rw [if_pos trivial]
    rw [show escapeDollarsGo (d :: b' ++ '`' :: c).length c = escape_dollars_outside_code c from
      escapeDollarsGo_congr _ _ c
        (by simp only [List.length_cons, List.length_append]; omega) (Nat.le_refl _)]
    simp
  | cons x a' ih =>
    have hx : x ≠ '`' := fun he => ha (he ▸ List.mem_cons_self _ _)
    have ha' : '`' ∉ a' := fun hm => ha (List.mem_cons_of_mem _ hm)
    have hrec := ih ha'
    show escape_dollars_outside_code (x :: (a' ++ '`' :: b ++ '`' :: c)) = _
    rw [escape_cons_other hx, hrec]
    by_cases hd : x = '$'
    · subst hd
      simp
    · rw [if_neg hd]
      simp [hd]


/-- Claim C6 (confirmed): in the final escaping pass, every dollar sign
outside a backtick code span gains a preceding backslash, content inside a
span is copied verbatim, and the spec's concrete example holds.  The first
conjunct covers backtick-free text, the second an arbitrary single code span
flanked by backtick-free text, the third the concrete example. -/
theorem claim_C6 :
    (∀ s : Str, '`' ∉ s →
      escape_dollars_outside_code s =
        s.flatMap (fun ch => if ch = '$' then ['\\', '$'] else [ch])) ∧
    (∀ a b c : Str, '`' ∉ a → '`' ∉ b → b ≠ [] → c.head? ≠ some '`' →
      escape_dollars_outside_code (a ++ '`' :: b ++ '`' :: c) =
        a.flatMap (fun ch => if ch = '$' then ['\\', '$'] else [ch]) ++
          '`' :: b ++ '`' :: escape_dollars_outside_code c) ∧
    escape_dollars_outside_code (str "price is $5 and `code $5`") =
      str "price is \\$5 and `code $5`" :=
  ⟨escape_no_backtick, escape_span, by decide⟩

/-- Witness for claim C6: the span theorem applied to the spec's example. -/
theorem claim_C6_witness :
    escape_dollars_outside_code
        (str "price is $5 and " ++ '`' :: str "code $5" ++ '`' :: []) =
      (str "price is $5 and ").flatMap
          (fun ch => if ch = '$' then ['\\', '$'] else [ch]) ++
        '`' :: str "code $5" ++ '`' :: escape_dollars_outside_code [] :=
  claim_C6.2.1 (str "price is $5 and ") (str "code $5") []
    (by decide) (by decide) (by decide) (by decide)

/-! ## Small utilities shared by the page pipeline -/

/-- Rust `str::split(sep)` on `List Char`. -/
def splitOnChar (sep : Char) : Str → List Str
  | [] => [[]]
  | c :: cs =>
    let r := splitOnChar sep cs
    if c = sep then [] :: r
    else (c :: r.headD []) :: r.tail

/-- Start index of the last occurrence of `pat` in `l`, if any. -/
def lastOccIdx (pat l : Str) : Option Nat :=
  (List.range (l.length + 1)).foldl
    (fun acc i => if pat.isPrefixOf (l.drop i) then some i else acc) none

/-- Association-list insert with replacement, modelling `HashMap::insert`
(on lists with unique keys, as all registries here are): an existing entry
for the key is replaced in place, otherwise the entry is appended. -/
def insertA {α : Type} : List (Str × α) → Str → α → List (Str × α)
  | [], k, v => [(k, v)]
  | (k', v') :: rest, k, v =>
    if k' = k then (k, v) :: rest else (k', v') :: insertA rest k v

/-- Association-list lookup, modelling `HashMap` key lookup. -/
def lookupA {α : Type} (l : List (Str × α)) (k : Str) : Option α :=
  (l.find? (fun pr => pr.1 = k)).map Prod.snd

/-- `Path::new(p).parent().and_then(|x| x.to_str())`, modelled for
`/`-separated canonical paths: drop the last `/`-component. -/
def parentPath (p : Str) : Option Str :=
  if p = [] ∨ p = ['/'] then none
  else match lastOccIdx ['/'] p with
    | some 0 => some ['/']
    | some k => some (p.take k)
    | none => some []

/-- Rust `str::trim` (whitespace from both ends). -/
def trimStr (s : Str) : Str :=
  ((s.dropWhile Char.isWhitespace).reverse.dropWhile Char.isWhitespace).reverse

/-- Lines 532-537: `remove_html_encode`, three sequential replacements. -/
def remove_html_encode (s : Str) : Str :=
  replaceList (str "&gt;") (str ">")
    (replaceList (str "&lt;") (str "<") (replaceList (str "&amp;") (str "&") s))

/-! ## Regex models

The source's regexes are modelled with the regex crate's semantics: the
leftmost match wins, alternatives are preferred in order, `.*` is greedy,
and `.` does not match a newline. -/

/-- `PROC_VAR_REGEX` = `(?:procs)|(?:vars) \((.*)\)` (note that the
alternation splits at the top level: the first alternative is just the
literal `procs` and contains no capture group).  Returns the capture group,
i.e. `some X` exactly when the leftmost match uses the second alternative
`vars (X)`. -/
def procVarCapture : Str → Option Str
  | [] => none
  | c :: cs =>
    if (str "procs").isPrefixOf (c :: cs) then none
    else if (str "vars (").isPrefixOf (c :: cs) then
      let seg := ((c :: cs).drop 6).takeWhile (fun ch => ch ≠ '\n')
      match lastOccIdx [')'] seg with
      | some j => some (seg.take j)
      | none => procVarCapture cs
    else procVarCapture cs

/-- `PROC_VAR_NAME_REGEX` = `(.*) (?:proc)|(?:var)` (again the alternation
splits at the top level).  Returns capture group 1, i.e. the text before the
last ` proc` on the line of the leftmost match; a leftmost match by the bare
`var` alternative carries no capture. -/
def procVarName : Str → Option Str
  | [] => none
  | c :: cs =>
    let seg := (c :: cs).takeWhile (fun ch => ch ≠ '\n')
    match lastOccIdx (str " proc") seg with
    | some j => some (seg.take j)
    | none => if (str "var").isPrefixOf (c :: cs) then none else procVarName cs

/-- Length of the match of `NAIVE_STRIPPER_REGEX` (`<a name.*>.*</a>`)
starting at the head of `l`, if any: from the literal `<a name` to the last
`</a>` on the line, provided some `>` lies strictly between. -/
def naiveMatchLen (l : Str) : Option Nat :=
  if (str "<a name").isPrefixOf l then
    let seg := l.takeWhile (fun ch => ch ≠ '\n')
    match lastOccIdx (str "</a>") seg with
    | some k => if '>' ∈ (seg.take k).drop 7 then some (k + 4) else none
    | none => none
  else none

/-- Fuelled scanner for `naive_stripper`. -/
def naiveStripGo : Nat → Str → Str
  | _, [] => []
  | 0, s => s
  | f + 1, c :: cs =>
    match naiveMatchLen (c :: cs) with
    | some m => naiveStripGo f ((c :: cs).drop m)
    | none => c :: naiveStripGo f cs

/-- `NAIVE_STRIPPER_REGEX.replace_all(input, "")`. -/
def naive_stripper (s : Str) : Str := naiveStripGo s.length s

/-- `(?i)tt>`: one orphaned tag remnant (`tt>` case-insensitively). -/
def isTT (c : Char) : Bool := c = 't' || c = 'T'

/-- `ORPHAN_TT_REGEX.replace_all(input, "")`: remove every case-insensitive
occurrence of `tt>`. -/
def orphan_tt_strip : Str → Str
  | a :: b :: '>' :: rest =>
    if isTT a && isTT b then orphan_tt_strip rest
    else a :: orphan_tt_strip (b :: '>' :: rest)
  | a :: rest => a :: orphan_tt_strip rest
  | [] => []

/-- Match of `CODE_PERCENT_REGEX` (`` `(.*)(%%)(.*)` ``) starting at the
head of `l`: the opener backtick, greedy group 1 up to the last `%%` that
still has a closing backtick after it on the line, and greedy group 3 up to
the last backtick of the line.  Returns `(group1, group3, match length)`. -/
def percentSpanMatch : Str → Option (Str × Str × Nat)
  | '`' :: rest =>
    let seg := rest.takeWhile (fun ch => ch ≠ '\n')
    match lastOccIdx ['`'] seg with
    | some r =>
      match lastOccIdx (str "%%") (seg.take r) with
      | some q => some (seg.take q, (seg.take r).drop (q + 2), r + 2)
      | none => none
    | none => none
  | _ => none

/-- Fuelled scanner for `clean_code_percentage`. -/
def cleanCodePercentGo : Nat → Str → Str
  | _, [] => []
  | 0, s => s
  | f + 1, c :: cs =>
    match percentSpanMatch (c :: cs) with
    | some (g1, g3, m) =>
      ('`' :: (g1 ++ str "%25%25" ++ g3 ++ ['`'])) ++ cleanCodePercentGo f ((c :: cs).drop m)
    | none => c :: cleanCodePercentGo f cs

/-- `clean_code_percentage`: `CODE_PERCENT_REGEX.replace_all(input,
"`${1}%25%25${3}`")`. -/
def clean_code_percentage (s : Str) : Str := cleanCodePercentGo s.length s

/-- Match of `LINK_BACKSLASH_REGEX` (`` (`.*\.*`) ``) starting at the head
of `l`: from the opener backtick to the last backtick on the line.  Returns
`(captured text, match length)`. -/
def backtickSpanAt : Str → Option (Str × Nat)
  | '`' :: rest =>
    let seg := rest.takeWhile (fun ch => ch ≠ '\n')
    match lastOccIdx ['`'] seg with
    | some r => some ('`' :: (seg.take r ++ ['`']), r + 2)
    | none => none
  | _ => none

/-- Collect the `captures_iter` matches of `LINK_BACKSLASH_REGEX`
(leftmost, non-overlapping). -/
def collectBacktickSpansGo : Nat → Str → List Str
  | _, [] => []
  | 0, _ => []
  | f + 1, c :: cs =>
    match backtickSpanAt (c :: cs) with
    | some (cap, m) => cap :: collectBacktickSpansGo f ((c :: cs).drop m)
    | none => collectBacktickSpansGo f cs

/-- `clean_code_backslashes`: for each captured backtick span, globally
replace it by its backslash-free form. -/
def clean_code_backslashes (s : Str) : Str :=
  (collectBacktickSpansGo s.length s).foldl
    (fun acc cap => replaceList cap (replaceList ['\\'] [] cap) acc) s

/-! ## The parsed-fragment boundary

The scraper library is an external collaborator: a fragment enters the
model as the data its selectors extract (first `<a>` and its `name`
attribute, first `<h2>` with its `byondver` attribute, the `dl` elements,
and the `p,h3,xmp,pre,ul` elements in DOM order). -/

/-- A `dt` element: inner HTML, `has_children()`, inner HTML of its first
`<b>` child if any. -/
structure DtNode where
  innerHtml : Str
  hasChildren : Bool
  firstB : Option Str
  deriving DecidableEq

/-- A `dl` element: its first `dt` (if any), its `dd` inner HTML in order,
and whether it carries the `codedd` class. -/
structure DlPart where
  firstDt : Option DtNode
  dds : List Str
  codedd : Bool
  deriving DecidableEq

/-- One element matched by the `p,h3,xmp,pre,ul` selector. -/
inductive TextElem where
  | p (classes : List Str) (innerHtml : Str)
  | h3 (innerHtml : Str)
  | xmp (innerHtml : Str)
  | pre (innerHtml : Str)
  | ul (outerHtml : Str)
  deriving DecidableEq

/-- A parsed fragment. -/
structure HtmlFrag where
  firstAnchorName : Option (Option Str)
  h2 : Option (Str × Option Str)
  dls : List DlPart
  texts : List TextElem
  deriving DecidableEq

/-- The `Page` struct of the source. -/
structure Page where
  title : Str
  body : Str
  metadata : List (Str × List Str)
  version : Option Str
  tags : List Str
  deriving DecidableEq

/-! ## Cross-reference resolution (pass 2, lines 406-440) -/

/-- Lines 413-431: the per-anchor rewriting decision of
`parse_html_to_markdown`: `final_destination` is the target with **every**
`#` removed; an unregistered, non-`http` target becomes a broken-link
marker embedding the sanitized path; otherwise the anchor is replaced by
link markup pointing at the sanitized target.  `none` models the
`make_ref_web_safe` panic aborting the run. -/
def rewrite_link (all_pages : List Str) (dest inner : Str) : Option Str :=
  let final_destination := replaceList ['#'] [] dest
  if ¬ all_pages.contains final_destination ∧
      ¬ containsSub (str "http") final_destination then
    (make_ref_web_safe final_destination).map
      (fun safe => str "**BROKEN LINK: " ++ safe ++ str "**")
  else
    (make_ref_web_safe final_destination).map
      (fun safe => str "[" ++ inner ++ str "](" ++ safe ++ str ")")

/-- Modelled from the spec's words only (for comparison with the code):
"strip any trailing fragment-identifier (`#...`) from the target". -/
def specStripFragment (dest : Str) : Str := dest.takeWhile (fun ch => ch ≠ '#')

/-! ## Metadata-header rendering (lines 224-303) -/

/-- One extracted header: `(term, entries, is_code_header)`. -/
abbrev Header := Str × List Str × Bool

/-- Lines 226-262: extract one header from a `dl` element: the term is the
first `dt`'s inner HTML (unwrapping a nested `<b>` when the `dt` has
children), with `:` removed; entries are the Markdown-rendered `dd`
contents (after stripping self-reference anchors), empty ones dropped; the
header is code-styled if the `dl` has class `codedd` or the term is
`Format`. -/
def extractHeader (md : Str → Str) (dl : DlPart) : Option Header :=
  match dl.firstDt with
  | none => none
  | some dt =>
    let titleEl :=
      if dt.hasChildren then
        match dt.firstB with
        | some b => b
        | none => dt.innerHtml
      else dt.innerHtml
    let dtitle := replaceList [':'] [] titleEl
    let entries := (dl.dds.map (fun d => md (naive_stripper d))).filter (fun e => e ≠ [])
    some (dtitle, entries, dl.codedd || dtitle = str "Format")

/-- Lines 276-289: rendering of one entry of a multi-entry header. -/
def renderEntryMulti (term : Str) (isCode : Bool) (e : Str) : Str :=
  if term = str "Args" ∧ ':' ∈ e then
    let sp := splitOnChar ':' e
    str "- `" ++ sp.headD [] ++ str "`:" ++ sp.tail.headD []
  else if isCode ∧ e.head? ≠ some '[' then str "- `" ++ e ++ str "`"
  else str "- " ++ e

/-- Lines 268-296: render one header block to Markdown. -/
def renderHeaderBlock (h : Header) : Str :=
  let base := str "### " ++ h.1
  if 1 < h.2.1.length then
    base ++ ('\n' :: (h.2.1.map (fun e => renderEntryMulti h.1 h.2.2 e ++ ['\n'])).flatten)
  else
    match h.2.1 with
    | [e] => base ++ ('\n' :: (str "> " ++ (if h.2.2 then '`' :: (e ++ ['`']) else e)))
    | _ => base

/-- Line 298: a header is deferred to the end of the body when its term is
`See also` or contains `/var` or `/proc`. -/
def isDeferredTerm (t : Str) : Bool :=
  t = str "See also" || containsSub (str "/var") t || containsSub (str "/proc") t

/-- Lines 299-301: the cleanup applied to each pushed block. -/
def cleanBlock (s : Str) : Str := clean_code_backslashes (clean_code_percentage s)

/-- Lines 267-303: the header loop splitting rendered blocks into the front
list (`text`) and the deferred list (`write_after`), in source order. -/
def splitHeaders : List Header → List Str × List Str
  | [] => ([], [])
  | h :: hs =>
    let r := splitHeaders hs
    if isDeferredTerm h.1 then (r.1, cleanBlock (renderHeaderBlock h) :: r.2)
    else (cleanBlock (renderHeaderBlock h) :: r.1, r.2)

/-! ## Body text elements (lines 305-369) -/

/-- Lines 305-369: render one `p/h3/xmp/pre/ul` element; `none` means the
element is dropped (the `Example:` heading). -/
def renderTextElem (md : Str → Str) (target : Option Str) : TextElem → Option Str
  | .p classes inner =>
    if str "note" ∈ classes || (str "Note:").isPrefixOf inner then
      let noteType :=
        if str "security" ∈ classes then str "danger"
        else if str "deprecated" ∈ classes then str "deprecated"
        else str "note"
      some (str "> [!" ++ noteType ++ str "]\n> " ++
        md (replaceList (str "Note:") [] inner))
    else some (md inner)
  | .h3 inner =>
    if inner = str "Example:" then none
    else some (str "## " ++ md inner)
  | .xmp inner =>
    match target with
    | some t => some (str "```dream-maker /" ++ t ++ str "/\n" ++ trimStr inner ++ str "\n```")
    | none => some (str "```dream-maker\n" ++ trimStr inner ++ str "\n```")
  | .pre inner => some (str "```\n" ++ trimStr inner ++ str "\n```")
  | .ul outer => some (md outer)

/-! ## `create_page_from_html` (lines 195-404) -/

/-- Lines 195-404.  The HTML→Markdown conversion `parse_html_to_markdown`
(which consumes the scraper DOM, the registry and the external `html2md`
engine) enters as the abstract parameter `md`; its per-anchor core is
modelled separately as `rewrite_link`.  Returns `none` when the title
`unwrap` panics (registered fragment with no `h2`), aborting the run. -/
def create_page_from_html (md : Str → Str) (page_path : Str) (doc : HtmlFrag)
    (path_to_page : List (Str × Page)) (page_is_object : List Str) :
    Option (List (Str × Page) × List Str) :=
  match doc.h2 with
  | none => none
  | some (title, byondver) =>
    let tags0 : List Str :=
      (if containsSub (str " proc") title then [str "proc"] else []) ++
        (if containsSub (str " var") title then [str "var"] else [])
    let target_name := procVarName title
    let page_is_object' :=
      match procVarCapture title with
      | some x => if x ∈ page_is_object then page_is_object else page_is_object ++ [x]
      | none => page_is_object
    let headers := doc.dls.filterMap (extractHeader md)
    let tags := tags0 ++ headers.filterMap
      (fun h => if containsSub (str "When") h.1 then some (str "event") else none)
    let split := splitHeaders headers
    let bodyBlocks := doc.texts.filterMap (renderTextElem md target_name)
    let parsed_metadata := (headers.filter (fun h => h.1 ≠ str "See also")).map
      (fun h => (h.1, h.2.1.map
        (fun v => replaceList (str "%%") (str "\\%\\%") (replaceList ['\\'] [] v))))
    let page : Page :=
      { title := remove_html_encode title
        body := List.intercalate (str "\n\n") (split.1 ++ bodyBlocks ++ split.2)
        metadata := parsed_metadata
        version := byondver
        tags := tags }
    some (insertA path_to_page page_path page, page_is_object')

/-! ## The main pipeline (lines 109-193) -/

/-- The canonical path a fragment registers: the `name` attribute of its
first `<a>` element (fragments whose first `<a>` has no `name`, or which
have no `<a>`, register nothing). -/
def registeredName (f : HtmlFrag) : Option Str :=
  match f.firstAnchorName with
  | some (some p) => some p
  | _ => none

/-- Lines 122-138: pass 1, registering one fragment: record the parent
directory in `page_is_section` and the path→fragment entry. -/
def registerFrag (acc : List (Str × HtmlFrag) × List Str) (f : HtmlFrag) :
    List (Str × HtmlFrag) × List Str :=
  match registeredName f with
  | some p =>
    (insertA acc.1 p f,
      match parentPath p with
      | some par => if par ∈ acc.2 then acc.2 else acc.2 ++ [par]
      | none => acc.2)
  | none => acc

/-- Pass 1 over all fragments: the path→fragment registry (`path_to_doc`)
and the section set (`page_is_section`). -/
def buildDocs (frags : List HtmlFrag) : List (Str × HtmlFrag) × List Str :=
  frags.foldl registerFrag ([], [])

/-- Lines 143-151: pass 2, processing every registered fragment; a panicking
`create_page_from_html` aborts the run. -/
def createAll (md : Str → Str) :
    List (Str × HtmlFrag) → List (Str × Page) × List Str →
      Option (List (Str × Page) × List Str)
  | [], acc => some acc
  | (p, f) :: rest, acc =>
    match create_page_from_html md p f acc.1 acc.2 with
    | none => none
    | some acc' => createAll md rest acc'

/-- Lines 153-166: the synthetic root page. -/
def rootPage : Page :=
  { title := str "Reference"
    body := str "# dm-ref-scraper and Quartz\n\nThis site is made using [Quartz](https://quartz.jzhao.xyz/) and [dm-ref-scraper](https://github.com/hry-gh/dm-ref-scraper). You probably want to start [here](/DM)!\n    "
    metadata := []
    version := none
    tags := [] }

/-- The state of the run after both passes: the page registry (with the
synthetic root inserted at `/`), the section set and the ObjectMarkerSet. -/
structure RunResult where
  pages : List (Str × Page)
  sections : List Str
  objects : List Str
  deriving DecidableEq

/-- Lines 109-166 without the output loop: split (external), pass 1, pass 2,
root insertion.  `none` is an aborted run. -/
def runPipeline (md : Str → Str) (frags : List HtmlFrag) : Option RunResult :=
  let built := buildDocs frags
  match createAll md built.1 ([], []) with
  | none => none
  | some acc =>
    some { pages := insertA acc.1 (str "/") rootPage
           sections := built.2
           objects := acc.2 }

/-! ## Front matter and emission (lines 82-106 and 168-192) -/

/-- The key/value data handed to `toml_edit` by `Page::to_frontmatter`
(serialization itself is the external collaborator). -/
structure FrontMatter where
  title : Str
  version : Option Str
  headers : List (Str × List Str)
  tags : List Str
  deriving DecidableEq

/-- Lines 82-106: `Page::to_frontmatter`. -/
def to_frontmatter (pg : Page) (is_object : Bool) : FrontMatter :=
  { title := replaceList (str "%%") (str "\\%\\%") pg.title
    version := pg.version
    headers := pg.metadata
    tags := pg.tags ++ if is_object then [str "object"] else [] }

/-- Lines 168-191: emission of one page: the sanitized output file name
(`…/index` when the path is a section), the front matter — with the
`object` tag exactly when the ObjectMarkerSet contains the page's **title**
— and the processed body.  `none` models the `make_ref_web_safe` panic. -/
def emitPage (sections objects : List Str) (path : Str) (pg : Page) :
    Option (Str × FrontMatter × Str) :=
  match make_ref_web_safe path with
  | none => none
  | some safe =>
    let path_str := if path ∈ sections then safe ++ str "/index" else safe
    let body := escape_dollars_outside_code (orphan_tt_strip (remove_html_encode pg.body))
    some (path_str ++ str ".md", to_frontmatter pg (objects.contains pg.title), body)

/-- Lines 168-192: the output loop over the registry. -/
def emitAll (r : RunResult) : Option (List (Str × FrontMatter × Str)) :=
  go r.pages
where
  go : List (Str × Page) → Option (List (Str × FrontMatter × Str))
    | [] => some []
    | (p, pg) :: rest =>
      match emitPage r.sections r.objects p pg, go rest with
      | some e, some es => some (e :: es)
      | _, _ => none

/-! ## Claim C3 -/

/-- Claim C3 counterexample (claim as stated, refuted): the code computes
`final_destination` by deleting **every** `#` from the target, not by
stripping a trailing fragment identifier.  With registry `{ab}` and target
`a#b`: the spec-stripped target `a` is unregistered and non-external, so the
claim predicts a broken-link marker for `a`; the code instead resolves the
link to `ab`. -/
theorem claim_C3_cex :
    specStripFragment (str "a#b") = str "a" ∧
    (str "a" ∈ ([str "ab"] : List Str)) = False ∧
    containsSub (str "http") (specStripFragment (str "a#b")) = false ∧
    rewrite_link [str "ab"] (str "a#b") (str "x") = some (str "[x](ab)") ∧
    rewrite_link [str "ab"] (str "a#b") (str "x") ≠
      (make_ref_web_safe (specStripFragment (str "a#b"))).map
        (fun safe => str "**BROKEN LINK: " ++ safe ++ str "**") := by
  refine ⟨by decide, by decide, by decide, by decide, by decide⟩

/-- Claim C3 (amended): with the stripped target computed as the code does —
deleting every `#` character from the target — a registered stripped target
is replaced by link markup at the sanitized target path, and an unregistered
stripped target that does not look external (no `http` substring) is
replaced by a broken-link marker embedding the sanitized intended path. -/
theorem claim_C3 :
    ∀ (all_pages : List Str) (dest inner : Str),
      (all_pages.contains (replaceList ['#'] [] dest) = true →
        rewrite_link all_pages dest inner =
          (make_ref_web_safe (replaceList ['#'] [] dest)).map
            (fun safe => str "[" ++ inner ++ str "](" ++ safe ++ str ")")) ∧
      (all_pages.contains (replaceList ['#'] [] dest) = false →
        containsSub (str "http") (replaceList ['#'] [] dest) = false →
        rewrite_link all_pages dest inner =
          (make_ref_web_safe (replaceList ['#'] [] dest)).map
            (fun safe => str "**BROKEN LINK: " ++ safe ++ str "**")) := by
  intro all_pages dest inner
  constructor
  · intro h
    unfold rewrite_link
    rw [if_neg]
    rintro ⟨h1, _⟩
    exact h1 h
  · intro h1 h2
    unfold rewrite_link
    rw [if_pos]
    constructor
    · rw [h1]
      simp
    · rw [h2]
      simp

/-- Witness for claim C3: both branches at concrete inputs. -/
theorem claim_C3_witness :
    ([str "DM"].contains (replaceList ['#'] [] (str "#DM")) = true ∧
      rewrite_link [str "DM"] (str "#DM") (str "x") = some (str "[x](DM)")) ∧
    ([str "DM"].contains (replaceList ['#'] [] (str "#gone")) = false ∧
      containsSub (str "http") (replaceList ['#'] [] (str "#gone")) = false ∧
      rewrite_link [str "DM"] (str "#gone") (str "x") =
        some (str "**BROKEN LINK: gone**")) := by
  constructor
  · refine ⟨by decide, ?_⟩
    rw [(claim_C3 [str "DM"] (str "#DM") (str "x")).1 (by decide)]
    decide
  · refine ⟨by decide, by decide, ?_⟩
    rw [(claim_C3 [str "DM"] (str "#gone") (str "x")).2 (by decide) (by decide)]
    decide

/-! ## Claim C8 -/

theorem splitOnChar_no_sep {sep : Char} :
    ∀ e : Str, sep ∉ e → splitOnChar sep e = [e] := by
  intro e
  induction e with
  | nil => intro _; rfl
  | cons c cs ih =>
    intro h
    have hc : c ≠ sep := fun he => h (he ▸ List.mem_cons_self _ _)
    have hr := ih (fun hm => h (List.mem_cons_of_mem _ hm))
    simp only [splitOnChar, hr, if_neg hc]
    rfl

/-- Claim C8 counterexample (claim as stated, refuted): the code renders
only `split[0]` and `split[1]`, so for the entry `x:y:z` the text after the
second colon is dropped — the rendered remainder is `y`, not the entire
remainder `y:z`.  In addition, a single-entry `Args` block is rendered as a
quote line without any splitting. -/
theorem claim_C8_cex :
    renderEntryMulti (str "Args") false (str "x:y:z") = str "- `x`:y" ∧
    renderEntryMulti (str "Args") false (str "x:y:z") ≠ str "- `x`:y:z" ∧
    renderHeaderBlock (str "Args", [str "x:y"], false) = str "### Args\n> x:y" := by
  refine ⟨by decide, by decide, by decide⟩

/-- Claim C8 (amended): in a metadata block whose term is `Args` **with two
or more entries**, each colon-containing entry is rendered as a code span
holding the text before the first colon, followed by the text **between the
first and the second colon** (anything after a second colon is dropped);
a single-entry `Args` block is rendered as a quote line, unsplit. -/
theorem claim_C8 :
    (∀ (isCode : Bool) (e a b : Str) (rest : List Str),
      splitOnChar ':' e = a :: b :: rest →
      renderEntryMulti (str "Args") isCode e = str "- `" ++ a ++ str "`:" ++ b) ∧
    (∀ (e : Str) (isCode : Bool),
      renderHeaderBlock (str "Args", [e], isCode) =
        str "### Args" ++ ('\n' :: (str "> " ++ (if isCode then '`' :: (e ++ ['`']) else e)))) := by
  constructor
  · intro isCode e a b rest hsplit
    have hmem : ':' ∈ e := by
      by_contra hmem
      rw [splitOnChar_no_sep e hmem] at hsplit
      simp at hsplit
    unfold renderEntryMulti
    rw [if_pos ⟨rfl, hmem⟩, hsplit]
    rfl
  · intro e isCode
    rfl

/-- Witness for claim C8 at a concrete entry. -/
theorem claim_C8_witness :
    splitOnChar ':' (str "name:desc") = [str "name", str "desc"] ∧
    renderEntryMulti (str "Args") false (str "name:desc") =
      str "- `" ++ str "name" ++ str "`:" ++ str "desc" :=
  ⟨by decide, claim_C8.1 false (str "name:desc") (str "name") (str "desc") [] (by decide)⟩

/-! ## Claim C4 -/

theorem foldl_lastIdx_no_match {p : Nat → Bool} :
    ∀ (L : List Nat) (acc : Option Nat), (∀ i ∈ L, p i = false) →
      L.foldl (fun a i => if p i then some i else a) acc = acc := by
  intro L
  induction L with
  | nil => intro acc _; rfl
  | cons j L' ih =>
    intro acc h
    simp only [List.foldl_cons]
    rw [h j (List.mem_cons_self _ _)]
    simp only [Bool.false_eq_true, if_false]
    exact ih acc (fun i hi => h i (List.mem_cons_of_mem _ hi))

theorem foldl_lastIdx_unique {p : Nat → Bool} :
    ∀ (L : List Nat) (acc : Option Nat) (m : Nat), m ∈ L →
      (∀ i ∈ L, (p i = true ↔ i = m)) →
      L.foldl (fun a i => if p i then some i else a) acc = some m := by
  intro L
  induction L with
  | nil => intro acc m hm; simp at hm
  | cons j L' ih =>
    intro acc m hm h
    simp only [List.foldl_cons]
    by_cases hj : p j = true
    · have hjm : j = m := (h j (List.mem_cons_self _ _)).mp hj
      subst hjm
      rw [hj]
      simp only [if_true]
      by_cases hmem : j ∈ L'
      · exact ih (some j) j hmem (fun i hi => h i (List.mem_cons_of_mem _ hi))
      · apply foldl_lastIdx_no_match
        intro i hi
        by_cases hpi : p i = true
        · exact absurd (((h i (List.mem_cons_of_mem _ hi)).mp hpi) ▸ hi) hmem
        · simpa using hpi
    · have hjm : j ≠ m := fun he => hj ((h j (List.mem_cons_self _ _)).mpr he)
      have hm' : m ∈ L' := by
        rcases List.mem_cons.mp hm with h1 | h1
        · exact absurd h1.symm hjm
        · exact h1
      rw [Bool.not_eq_true] at hj
      rw [hj]
      simp only [Bool.false_eq_true, if_false]
      exact ih acc m hm' (fun i hi => h i (List.mem_cons_of_mem _ hi))

theorem lastOccIdx_unique {pat l : Str} {m : Nat} (hm : m ≤ l.length)
    (h : ∀ i ≤ l.length, (pat.isPrefixOf (l.drop i) = true ↔ i = m)) :
    lastOccIdx pat l = some m := by
  unfold lastOccIdx
  apply foldl_lastIdx_unique
  · exact List.mem_range.mpr (by omega)
  · intro i hi
    exact h i (by have := List.mem_range.mp hi; omega)

/-- If `c ∉ X` then the last occurrence of `[c]` in `X ++ [c]` starts at
`X.length`. -/
theorem lastOccIdx_snoc {X : Str} {c : Char} (hc : c ∉ X) :
    lastOccIdx [c] (X ++ [c]) = some X.length := by
  apply lastOccIdx_unique (by simp)
  intro i hi
  simp only [List.length_append, List.length_cons, List.length_nil] at hi
  rcases Nat.lt_trichotomy i X.length with hlt | heq | hgt
  · constructor
    · intro hpre
      exfalso
      have h1 : (X ++ [c]).drop i = X.drop i ++ [c] :=
        List.drop_append_of_le_length (by omega)
      have h2 : X.drop i = X[i] :: X.drop (i + 1) := List.drop_eq_getElem_cons hlt
      rw [h1, h2] at hpre
      have h3 := isPrefixOf_eq_true.mp hpre
      simp only [List.cons_append, List.cons_prefix_cons] at h3
      exact hc (h3.1 ▸ X.getElem_mem hlt)
    · omega
  · subst heq
    constructor
    · intro _
      rfl
    · intro _
      rw [List.drop_left]
      simp [List.isPrefixOf]
  · constructor
    · intro hpre
      exfalso
      have hi' : i = X.length + 1 := by omega
      subst hi'
      rw [show (X ++ [c]).drop (X.length + 1) = [] from by simp] at hpre
      simp [List.isPrefixOf] at hpre
    · omega

/-- Claim C4 counterexample (claim as stated, refuted): a `procs (X)` title
records nothing into the ObjectMarkerSet (the regex alternation makes the
`procs` alternative capture-free), and emission attaches the `object` tag by
page **title**, not by canonical path: a page whose canonical path is `Foo`
but whose title is not in the set gets no `object` tag. -/
theorem claim_C4_cex :
    procVarCapture (str "procs (Foo)") = none ∧
    (create_page_from_html (fun s => s) (str "Foo")
        { firstAnchorName := some (some (str "Foo")),
          h2 := some (str "procs (Foo)", none), dls := [], texts := [] }
        [] []).map Prod.snd = some [] ∧
    (emitPage [] [str "Foo"] (str "Foo")
        { title := str "bar", body := [], metadata := [], version := none,
          tags := [] }).map (fun e => e.2.1.tags) = some [] := by
  refine ⟨by decide, by decide, by decide⟩

/-- Claim C4 (amended): only the `vars (X)` title form records `X` into the
ObjectMarkerSet (the `procs` alternative of the regex carries no capture
group and records nothing); the set update happens in
`create_page_from_html`; and at emission the extra `object` front-matter tag
is attached exactly when the set contains the page's **title**. -/
theorem claim_C4 :
    (∀ X : Str, ')' ∉ X → '\n' ∉ X →
      procVarCapture (str "vars (" ++ X ++ str ")") = some X) ∧
    (∀ X : Str, procVarCapture (str "procs (" ++ X ++ str ")") = none) ∧
    (∀ (md : Str → Str) (path : Str) (f : HtmlFrag) (pages : List (Str × Page))
        (objs : List Str) (tv : Str × Option Str), f.h2 = some tv →
      (create_page_from_html md path f pages objs).map Prod.snd =
        some (match procVarCapture tv.1 with
              | some x => if x ∈ objs then objs else objs ++ [x]
              | none => objs)) ∧
    (∀ (sections objects : List Str) (path : Str) (pg : Page) (fp : Str)
        (fm : FrontMatter) (body : Str),
      emitPage sections objects path pg = some (fp, fm, body) →
      (str "object" ∈ fm.tags ↔
        objects.contains pg.title = true ∨ str "object" ∈ pg.tags)) := by
  refine ⟨?_, ?_, ?_, ?_⟩
  · intro X hpar hnl
    show procVarCapture ('v' :: 'a' :: 'r' :: 's' :: ' ' :: '(' :: (X ++ str ")")) = some X
    simp only [procVarCapture]
    rw [if_neg (by simp [List.isPrefixOf, str]), if_pos (by simp [List.isPrefixOf, str])]
    have hdrop : ('v' :: 'a' :: 'r' :: 's' :: ' ' :: '(' :: (X ++ str ")")).drop 6 =
        X ++ str ")" := rfl
    rw [hdrop]
    have hseg : (X ++ str ")").takeWhile (fun ch => ch ≠ '\n') = X ++ str ")" := by
      rw [List.takeWhile_eq_self_iff]
      intro a ha
      simp only [decide_eq_true_eq]
      rcases List.mem_append.mp ha with h1 | h1
      · exact fun he => hnl (he ▸ h1)
      · intro he
        rw [show (str ")") = [')'] from rfl] at h1
        simp at h1
        subst h1
        exact absurd he (by decide)
    rw [hseg]
    rw [show (str ")") = [')'] from rfl, lastOccIdx_snoc hpar]
    dsimp only
    rw [List.take_left]
  · intro X
    show procVarCapture ('p' :: 'r' :: 'o' :: 'c' :: 's' :: ' ' :: '(' :: (X ++ str ")")) =
      none
    simp only [procVarCapture]
    rw [if_pos (by simp [List.isPrefixOf, str])]
  · intro md path f pages objs tv hf
    obtain ⟨title, ver⟩ := tv
    simp only [create_page_from_html, hf, Option.map_some]
    rfl
  · intro sections objects path pg fp fm body h
    unfold emitPage at h
    cases hs : make_ref_web_safe path with
    | none => rw [hs] at h; exact absurd h (by simp)
    | some safe =>
      rw [hs] at h
      simp only [Option.some.injEq, Prod.mk.injEq] at h
      have hfm : fm = to_frontmatter pg (objects.contains pg.title) := h.2.1.symm
      subst hfm
      simp only [to_frontmatter, List.mem_append]
      cases hob : objects.contains pg.title <;> simp

/-- Witness for claim C4 at concrete titles and pages. -/
theorem claim_C4_witness :
    procVarCapture (str "vars (" ++ str "client" ++ str ")") = some (str "client") ∧
    procVarCapture (str "procs (" ++ str "client" ++ str ")") = none :=
  ⟨claim_C4.1 (str "client") (by decide) (by decide), claim_C4.2.1 (str "client")⟩

/-! ## Claim C7 -/

theorem splitHeaders_eq_filter :
    ∀ hs : List Header,
      splitHeaders hs =
        ((hs.filter (fun h => !(isDeferredTerm h.1))).map
            (fun h => cleanBlock (renderHeaderBlock h)),
          (hs.filter (fun h => isDeferredTerm h.1)).map
            (fun h => cleanBlock (renderHeaderBlock h))) := by
  intro hs
  induction hs with
  | nil => rfl
  | cons h hs ih =>
    simp only [splitHeaders, ih]
    by_cases hd : isDeferredTerm h.1 = true
    · simp [hd]
    · simp only [Bool.not_eq_true] at hd
      simp [hd]

/-- Claim C7 (confirmed): the assembled body is always
[non-deferred header blocks in source order] ++ [body blocks in source
order] ++ [deferred header blocks in source order], every `See also` block
lands in the deferred segment — strictly after all body blocks — and
`create_page_from_html` assembles the page body exactly this way. -/
theorem claim_C7 :
    (∀ (headers : List Header) (bodyBlocks : List Str),
      (splitHeaders headers).1 ++ bodyBlocks ++ (splitHeaders headers).2 =
        (headers.filter (fun h => !(isDeferredTerm h.1))).map
            (fun h => cleanBlock (renderHeaderBlock h)) ++
          bodyBlocks ++
          (headers.filter (fun h => isDeferredTerm h.1)).map
            (fun h => cleanBlock (renderHeaderBlock h)) ∧
      ∀ h ∈ headers, h.1 = str "See also" →
        cleanBlock (renderHeaderBlock h) ∈ (splitHeaders headers).2) ∧
    (∀ (md : Str → Str) (path : Str) (f : HtmlFrag) (pages : List (Str × Page))
        (objs : List Str) (title : Str) (ver : Option Str), f.h2 = some (title, ver) →
      ∃ pg objs2,
        create_page_from_html md path f pages objs = some (insertA pages path pg, objs2) ∧
        pg.body = List.intercalate (str "\n\n")
          (((f.dls.filterMap (extractHeader md)).filter
              (fun h => !(isDeferredTerm h.1))).map
              (fun h => cleanBlock (renderHeaderBlock h)) ++
            f.texts.filterMap (renderTextElem md (procVarName title)) ++
            ((f.dls.filterMap (extractHeader md)).filter
              (fun h => isDeferredTerm h.1)).map
              (fun h => cleanBlock (renderHeaderBlock h)))) := by
  constructor
  · intro headers bodyBlocks
    constructor
    · rw [splitHeaders_eq_filter]
    · intro h hmem hterm
      rw [splitHeaders_eq_filter]
      have hdef : isDeferredTerm h.1 = true := by
        unfold isDeferredTerm
        rw [hterm]
        simp
      exact List.mem_map_of_mem _ (List.mem_filter.mpr ⟨hmem, hdef⟩)
  · intro md path f pages objs title ver hf
    obtain ⟨anc, fh2, dls, texts⟩ := f
    simp only at hf
    subst hf
    exact ⟨_, _, rfl, by simp only [splitHeaders_eq_filter]⟩

/-- Witness for claim C7: a concrete header list with a `See also` block
between two others, plus one concrete page creation. -/
theorem claim_C7_witness :
    ((str "See also", [str "x"], false) ∈
        ([(str "Format", [str "f"], true), (str "See also", [str "x"], false),
          (str "Args", [str "a"], false)] : List Header)) ∧
    cleanBlock (renderHeaderBlock (str "See also", [str "x"], false)) ∈
      (splitHeaders [(str "Format", [str "f"], true), (str "See also", [str "x"], false),
        (str "Args", [str "a"], false)]).2 :=
  ⟨by decide,
    (claim_C7.1 [(str "Format", [str "f"], true), (str "See also", [str "x"], false),
      (str "Args", [str "a"], false)] []).2
      (str "See also", [str "x"], false) (by decide) (by decide)⟩

/-! ## Association-list lemmas -/

theorem lookupA_insertA_self {α : Type} :
    ∀ (l : List (Str × α)) (k : Str) (v : α), lookupA (insertA l k v) k = some v := by
  intro l
  induction l with
  | nil => intro k v; simp [insertA, lookupA]
  | cons pr rest ih =>
    intro k v
    obtain ⟨k', v'⟩ := pr
    simp only [insertA]
    by_cases hk : k' = k
    · rw [if_pos hk]
      simp [lookupA]
    · rw [if_neg hk]
      simp only [lookupA, List.find?_cons]
      rw [show (decide ((k', v').1 = k)) = false from by simp [hk]]
      exact ih k v

theorem lookupA_insertA_other {α : Type} :
    ∀ (l : List (Str × α)) (k k' : Str) (v : α), k' ≠ k →
      lookupA (insertA l k v) k' = lookupA l k' := by
  intro l
  induction l with
  | nil =>
    intro k k' v h
    simp [insertA, lookupA, List.find?_cons, Ne.symm h, h]
  | cons pr rest ih =>
    intro k k' v h
    obtain ⟨q, w⟩ := pr
    simp only [insertA]
    by_cases hq : q = k
    · rw [if_pos hq]
      subst hq
      unfold lookupA
      simp only [List.find?_cons]
      have h1 : (decide ((q, v).1 = k')) = false := by simp [Ne.symm h]
      rw [h1]
    · rw [if_neg hq]
      unfold lookupA
      simp only [List.find?_cons]
      cases hd : decide ((q, w).1 = k') with
      | false =>
        have hrec := ih k k' v h
        unfold lookupA at hrec
        exact hrec
      | true => rfl

theorem insertA_keys {α : Type} :
    ∀ (l : List (Str × α)) (k : Str) (v : α),
      (insertA l k v).map Prod.fst =
        if k ∈ l.map Prod.fst then l.map Prod.fst else l.map Prod.fst ++ [k] := by
  intro l
  induction l with
  | nil => intro k v; simp [insertA]
  | cons pr rest ih =>
    intro k v
    obtain ⟨q, w⟩ := pr
    simp only [insertA]
    by_cases hq : q = k
    · subst hq
      rw [if_pos rfl]
      simp only [List.map_cons]
      rw [if_pos (List.mem_cons_self _ _)]
    · rw [if_neg hq]
      simp only [List.map_cons, ih, List.mem_cons]
      by_cases hmem : k ∈ rest.map Prod.fst
      · rw [if_pos hmem, if_pos (Or.inr hmem)]
      · rw [if_neg hmem, if_neg ?hne1]
        case hne1 =>
          rintro (h1 | h1)
          · exact hq h1.symm
          · exact hmem h1
        rfl

theorem insertA_keys_nodup {α : Type} {l : List (Str × α)} {k : Str} {v : α}
    (h : (l.map Prod.fst).Nodup) : ((insertA l k v).map Prod.fst).Nodup := by
  rw [insertA_keys]
  by_cases hmem : k ∈ l.map Prod.fst
  · rw [if_pos hmem]; exact h
  · rw [if_neg hmem]
    refine List.Nodup.append h (List.nodup_singleton k) ?_
    intro a ha hb
    rw [List.mem_singleton] at hb
    exact hmem (hb ▸ ha)

theorem insertA_length {α : Type} :
    ∀ (l : List (Str × α)) (k : Str) (v : α),
      (insertA l k v).length =
        if k ∈ l.map Prod.fst then l.length else l.length + 1 := by
  intro l
  induction l with
  | nil => intro k v; simp [insertA]
  | cons pr rest ih =>
    intro k v
    obtain ⟨q, w⟩ := pr
    simp only [insertA]
    by_cases hq : q = k
    · subst hq
      rw [if_pos rfl]
      simp only [List.length_cons, List.map_cons]
      rw [if_pos (List.mem_cons_self _ _)]
    · rw [if_neg hq]
      simp only [List.length_cons, ih, List.map_cons, List.mem_cons]
      by_cases hmem : k ∈ rest.map Prod.fst
      · rw [if_pos hmem, if_pos (Or.inr hmem)]
      · rw [if_neg hmem, if_neg ?hne2]
        case hne2 =>
          rintro (h1 | h1)
          · exact hq h1.symm
          · exact hmem h1

/-! ## Claim C1 -/

theorem create_page_none {md : Str → Str} {path : Str} {doc : HtmlFrag}
    {pages : List (Str × Page)} {objs : List Str} (h : doc.h2 = none) :
    create_page_from_html md path doc pages objs = none := by
  unfold create_page_from_html
  rw [h]

theorem createAll_none {md : Str → Str} :
    ∀ (docs : List (Str × HtmlFrag)) (acc : List (Str × Page) × List Str),
      (∃ e ∈ docs, e.2.h2 = none) → createAll md docs acc = none := by
  intro docs
  induction docs with
  | nil =>
    rintro acc ⟨e, he, _⟩
    simp at he
  | cons d rest ih =>
    rintro acc ⟨e, he, hnone⟩
    obtain ⟨p, f⟩ := d
    simp only [createAll]
    rcases List.mem_cons.mp he with h1 | h1
    · rw [create_page_none (show f.h2 = none from by rw [h1] at hnone; exact hnone)]
    · cases hc : create_page_from_html md p f acc.1 acc.2 with
      | none => rfl
      | some acc' => exact ih acc' ⟨e, h1, hnone⟩

/-- Claim C1 counterexample (claim as stated, refuted): on a batch with a
registered fragment lacking an `h2` title and a healthy second fragment, the
claim predicts the bad page is skipped and the run completes; the code
instead `unwrap`s the missing title, panicking and aborting the whole run
(no registry, no output at all). -/
theorem claim_C1_cex :
    ¬ ∃ r, runPipeline (fun s => s)
        [{ firstAnchorName := some (some (str "a")), h2 := none, dls := [], texts := [] },
         { firstAnchorName := some (some (str "b")), h2 := some (str "T", none),
           dls := [], texts := [] }] = some r := by
  have hnone : runPipeline (fun s => s)
      [{ firstAnchorName := some (some (str "a")), h2 := none, dls := [], texts := [] },
       { firstAnchorName := some (some (str "b")), h2 := some (str "T", none),
         dls := [], texts := [] }] = none := by decide
  rintro ⟨r, hr⟩
  rw [hnone] at hr
  exact absurd hr (by simp)

/-- Claim C1 (amended): a registered fragment with no `h2` title element is
a fatal error: the title `unwrap` panics and the whole run aborts, producing
no output (rather than skipping the page and continuing the batch). -/
theorem claim_C1 :
    ∀ (md : Str → Str) (frags : List HtmlFrag) (p : Str) (f : HtmlFrag),
      (p, f) ∈ (buildDocs frags).1 → f.h2 = none →
      runPipeline md frags = none := by
  intro md frags p f hmem hnone
  simp only [runPipeline]
  rw [createAll_none (buildDocs frags).1 ([], []) ⟨(p, f), hmem, hnone⟩]

/-- Witness for claim C1 at a concrete batch. -/
theorem claim_C1_witness :
    ((str "a", (⟨some (some (str "a")), none, [], []⟩ : HtmlFrag)) ∈
      (buildDocs [(⟨some (some (str "a")), none, [], []⟩ : HtmlFrag)]).1) ∧
    runPipeline (fun s => s) [(⟨some (some (str "a")), none, [], []⟩ : HtmlFrag)] = none :=
  ⟨by decide,
    claim_C1 (fun s => s) [(⟨some (some (str "a")), none, [], []⟩ : HtmlFrag)] (str "a")
      (⟨some (some (str "a")), none, [], []⟩ : HtmlFrag) (by decide) rfl⟩

/-! ## Claim C9 -/

/-- The registered fragment that survives for a path: the last fragment in
input order whose first anchor carries that `name`. -/
def lastRegistering (p : Str) (frags : List HtmlFrag) : Option HtmlFrag :=
  frags.foldl (fun acc f => if registeredName f = some p then some f else acc) none

theorem buildDocs_go_lookup (p : Str) :
    ∀ (frags : List HtmlFrag) (acc : List (Str × HtmlFrag) × List Str),
      lookupA (frags.foldl registerFrag acc).1 p =
        frags.foldl (fun a f => if registeredName f = some p then some f else a)
          (lookupA acc.1 p) := by
  intro frags
  induction frags with
  | nil => intro acc; rfl
  | cons f rest ih =>
    intro acc
    simp only [List.foldl_cons]
    rw [ih]
    congr 1
    unfold registerFrag
    cases hr : registeredName f with
    | none => simp [hr]
    | some q =>
      by_cases hq : q = p
      · subst hq
        simp [lookupA_insertA_self]
      · rw [if_neg (by simpa using Ne.symm (fun he => hq he.symm))]
        exact lookupA_insertA_other acc.1 q p f (Ne.symm hq)

theorem buildDocs_go_nodup :
    ∀ (frags : List HtmlFrag) (acc : List (Str × HtmlFrag) × List Str),
      (acc.1.map Prod.fst).Nodup →
      (((frags.foldl registerFrag acc).1).map Prod.fst).Nodup := by
  intro frags
  induction frags with
  | nil => intro acc h; exact h
  | cons f rest ih =>
    intro acc h
    simp only [List.foldl_cons]
    apply ih
    unfold registerFrag
    cases registeredName f with
    | none => exact h
    | some q => exact insertA_keys_nodup h

/-- Claim C9 (confirmed): duplicate canonical paths are collapsed by
`HashMap::insert`: the registry keeps exactly one fragment per path — the
one processed last — and nothing else in pass 1 reports or records the
discarded earlier fragments. -/
theorem claim_C9 :
    ∀ (frags : List HtmlFrag) (p : Str),
      ((buildDocs frags).1.map Prod.fst).Nodup ∧
      lookupA (buildDocs frags).1 p = lastRegistering p frags := by
  intro frags p
  constructor
  · exact buildDocs_go_nodup frags ([], []) (by simp)
  · unfold buildDocs lastRegistering
    rw [buildDocs_go_lookup p frags ([], [])]
    rfl

/-! ## Claim C2 -/

theorem mem_insertA {α : Type} :
    ∀ (l : List (Str × α)) (k : Str) (v : α) (e : Str × α),
      e ∈ insertA l k v → e ∈ l ∨ e = (k, v) := by
  intro l
  induction l with
  | nil =>
    intro k v e he
    simp only [insertA, List.mem_singleton] at he
    exact Or.inr he
  | cons pr rest ih =>
    intro k v e he
    obtain ⟨q, w⟩ := pr
    simp only [insertA] at he
    by_cases hq : q = k
    · rw [if_pos hq] at he
      rcases List.mem_cons.mp he with h1 | h1
      · exact Or.inr h1
      · exact Or.inl (List.mem_cons_of_mem _ h1)
    · rw [if_neg hq] at he
      rcases List.mem_cons.mp he with h1 | h1
      · exact Or.inl (h1 ▸ List.mem_cons_self _ _)
      · rcases ih k v e h1 with h2 | h2
        · exact Or.inl (List.mem_cons_of_mem _ h2)
        · exact Or.inr h2

theorem buildDocs_go_spec :
    ∀ (frags : List HtmlFrag) (acc : List (Str × HtmlFrag) × List Str),
      (acc.1.map Prod.fst ++ frags.filterMap registeredName).Nodup →
      (frags.foldl registerFrag acc).1.map Prod.fst =
        acc.1.map Prod.fst ++ frags.filterMap registeredName ∧
      (∀ e ∈ (frags.foldl registerFrag acc).1,
        e ∈ acc.1 ∨ (e.2 ∈ frags ∧ registeredName e.2 = some e.1)) := by
  intro frags
  induction frags with
  | nil =>
    intro acc _
    exact ⟨by simp, fun e he => Or.inl he⟩
  | cons f rest ih =>
    intro acc hnd
    simp only [List.foldl_cons]
    cases hr : registeredName f with
    | none =>
      have hstep : registerFrag acc f = acc := by
        unfold registerFrag
        rw [hr]
      rw [hstep]
      have hnd' : (acc.1.map Prod.fst ++ rest.filterMap registeredName).Nodup := by
        rwa [List.filterMap_cons_none hr] at hnd
      obtain ⟨h1, h2⟩ := ih acc hnd'
      refine ⟨by rw [h1, List.filterMap_cons_none hr], ?_⟩
      intro e he
      rcases h2 e he with h3 | h3
      · exact Or.inl h3
      · exact Or.inr ⟨List.mem_cons_of_mem _ h3.1, h3.2⟩
    | some q =>
      rw [List.filterMap_cons_some hr] at hnd
      have hqnot : q ∉ acc.1.map Prod.fst := by
        have := List.nodup_middle.mp hnd
        rcases List.nodup_cons.mp this with ⟨hq, _⟩
        exact fun hmem => hq (List.mem_append_left _ hmem)
      have hstep1 : (registerFrag acc f).1 = insertA acc.1 q f := by
        unfold registerFrag
        rw [hr]
      have hkeys : (registerFrag acc f).1.map Prod.fst = acc.1.map Prod.fst ++ [q] := by
        rw [hstep1, insertA_keys, if_neg hqnot]
      have hnd2 : ((registerFrag acc f).1.map Prod.fst ++
          rest.filterMap registeredName).Nodup := by
        rw [hkeys, List.append_assoc]
        simpa using hnd
      obtain ⟨h1, h2⟩ := ih (registerFrag acc f) hnd2
      constructor
      · rw [h1, hkeys, List.filterMap_cons_some hr, List.append_assoc]
        rfl
      · intro e he
        rcases h2 e he with h3 | h3
        · rw [hstep1] at h3
          rcases mem_insertA acc.1 q f e h3 with h4 | h4
          · exact Or.inl h4
          · subst h4
            exact Or.inr ⟨List.mem_cons_self _ _, hr⟩
        · exact Or.inr ⟨List.mem_cons_of_mem _ h3.1, h3.2⟩

theorem create_page_shape (md : Str → Str) (path : Str) {f : HtmlFrag}
    (pages : List (Str × Page)) (objs : List Str) {tv : Str × Option Str}
    (hf : f.h2 = some tv) :
    ∃ pg objs2,
      create_page_from_html md path f pages objs = some (insertA pages path pg, objs2) := by
  obtain ⟨anc, fh2, dls, texts⟩ := f
  obtain ⟨t, ver⟩ := tv
  simp only at hf
  subst hf
  exact ⟨_, _, rfl⟩

theorem createAll_spec (md : Str → Str) :
    ∀ (docs : List (Str × HtmlFrag)) (pages : List (Str × Page)) (objs : List Str),
      (∀ e ∈ docs, e.2.h2.isSome = true) →
      (pages.map Prod.fst ++ docs.map Prod.fst).Nodup →
      ∃ pages' objs', createAll md docs (pages, objs) = some (pages', objs') ∧
        pages'.map Prod.fst = pages.map Prod.fst ++ docs.map Prod.fst := by
  intro docs
  induction docs with
  | nil =>
    intro pages objs _ _
    exact ⟨pages, objs, rfl, by simp⟩
  | cons d rest ih =>
    intro pages objs hall hnd
    obtain ⟨p, f⟩ := d
    have hh2 : f.h2.isSome = true := hall (p, f) (List.mem_cons_self _ _)
    obtain ⟨tv, htv⟩ := Option.isSome_iff_exists.mp hh2
    obtain ⟨pg, objs2, hcreate⟩ := create_page_shape md p pages objs htv
    have hpnot : p ∉ pages.map Prod.fst := by
      simp only [List.map_cons] at hnd
      have := List.nodup_middle.mp hnd
      rcases List.nodup_cons.mp this with ⟨hq, _⟩
      exact fun hmem => hq (List.mem_append_left _ hmem)
    have hkeys : (insertA pages p pg).map Prod.fst = pages.map Prod.fst ++ [p] := by
      rw [insertA_keys, if_neg hpnot]
    have hnd2 : ((insertA pages p pg).map Prod.fst ++ rest.map Prod.fst).Nodup := by
      rw [hkeys, List.append_assoc]
      simp only [List.map_cons] at hnd
      simpa using hnd
    obtain ⟨pages', objs', hrun, hkeys'⟩ := ih (insertA pages p pg) objs2
      (fun e he => hall e (List.mem_cons_of_mem _ he)) hnd2
    refine ⟨pages', objs', ?_, ?_⟩
    · simp only [createAll, hcreate]
      exact hrun
    · rw [hkeys', hkeys, List.append_assoc]
      rfl

theorem emitPage_some (sections objects : List Str) {p : Str} (pg : Page)
    (h : (make_ref_web_safe p).isSome = true) :
    ∃ e, emitPage sections objects p pg = some e := by
  unfold emitPage
  cases hs : make_ref_web_safe p with
  | none => rw [hs] at h; simp at h
  | some safe => exact ⟨_, rfl⟩

theorem emitAll_go_spec (r : RunResult) :
    ∀ pages : List (Str × Page),
      (∀ e ∈ pages, (make_ref_web_safe e.1).isSome = true) →
      ∃ out, emitAll.go r pages = some out ∧ out.length = pages.length := by
  intro pages
  induction pages with
  | nil => intro _; exact ⟨[], rfl, rfl⟩
  | cons e rest ih =>
    intro hall
    obtain ⟨p, pg⟩ := e
    obtain ⟨o, ho⟩ := emitPage_some r.sections r.objects pg
      (hall (p, pg) (List.mem_cons_self _ _))
    obtain ⟨out, hout, hlen⟩ := ih (fun e he => hall e (List.mem_cons_of_mem _ he))
    refine ⟨o :: out, ?_, by simp [hlen]⟩
    simp only [emitAll.go, ho, hout]

/-- Claim C2 counterexample (claim as stated, refuted): one fragment with a
named anchor but no title heading gives N = 1, K = 0, so the claim predicts
a registry and output of exactly one page (the synthetic root).  The code
instead panics on the missing title and the run aborts with no registry and
no output at all. -/
theorem claim_C2_cex :
    ¬ ∃ r : RunResult, runPipeline (fun s => s)
      [(⟨some (some (str "a")), none, [], []⟩ : HtmlFrag)] = some r := by
  have h : runPipeline (fun s => s)
      [(⟨some (some (str "a")), none, [], []⟩ : HtmlFrag)] = none := by decide
  rintro ⟨r, hr⟩
  rw [h] at hr
  exact absurd hr (by simp)

/-- Claim C2 (amended): provided every fragment that registers a canonical
path also carries a title heading (otherwise the run aborts — see C1), the
registered paths are pairwise distinct (duplicates collapse — see C9),
none of them is `/`, and each survives sanitization (its percent escapes
decode to valid UTF-8 — see C10), the registry holds exactly K pages plus
the synthetic root `Reference` page at `/`, and the emitted output holds
exactly K + 1 files. -/
theorem claim_C2 :
    ∀ (md : Str → Str) (frags : List HtmlFrag),
      (∀ f ∈ frags, (registeredName f).isSome = true → f.h2.isSome = true) →
      (frags.filterMap registeredName).Nodup →
      str "/" ∉ frags.filterMap registeredName →
      (∀ p ∈ frags.filterMap registeredName, (make_ref_web_safe p).isSome = true) →
      ∃ r : RunResult, runPipeline md frags = some r ∧
        r.pages.length = (frags.filterMap registeredName).length + 1 ∧
        lookupA r.pages (str "/") = some rootPage ∧
        ∃ out, emitAll r = some out ∧
          out.length = (frags.filterMap registeredName).length + 1 := by
  intro md frags H1 H2 H3 H4
  obtain ⟨hkeys, hvals⟩ := buildDocs_go_spec frags ([], []) (by simpa using H2)
  have hdocs_h2 : ∀ e ∈ (buildDocs frags).1, e.2.h2.isSome = true := by
    intro e he
    rcases hvals e he with h1 | h1
    · simp at h1
    · exact H1 e.2 h1.1 (by rw [h1.2]; rfl)
  have hkeys' : (buildDocs frags).1.map Prod.fst = frags.filterMap registeredName := by
    simpa using hkeys
  obtain ⟨pages', objs', hrun, hpk⟩ := createAll_spec md (buildDocs frags).1 [] []
    hdocs_h2 (by simpa [hkeys'] using H2)
  have hpk' : pages'.map Prod.fst = frags.filterMap registeredName := by
    simpa [hkeys'] using hpk
  have hslash : str "/" ∉ pages'.map Prod.fst := by
    rw [hpk']
    exact H3
  refine ⟨⟨insertA pages' (str "/") rootPage, (buildDocs frags).2, objs'⟩, ?_, ?_, ?_, ?_⟩
  · simp only [runPipeline, hrun]
  · simp only
    rw [insertA_length, if_neg hslash]
    have : pages'.length = (pages'.map Prod.fst).length := by simp
    rw [this, hpk']
  · simp only
    exact lookupA_insertA_self pages' (str "/") rootPage
  · have hsan : ∀ e ∈ insertA pages' (str "/") rootPage,
        (make_ref_web_safe e.1).isSome = true := by
      intro e he
      rcases mem_insertA pages' (str "/") rootPage e he with h1 | h1
      · exact H4 e.1 (hpk' ▸ List.mem_map_of_mem Prod.fst h1)
      · rw [h1]
        decide
    obtain ⟨out, hout, hlen⟩ := emitAll_go_spec
      ⟨insertA pages' (str "/") rootPage, (buildDocs frags).2, objs'⟩
      (insertA pages' (str "/") rootPage) hsan
    refine ⟨out, hout, ?_⟩
    rw [hlen]
    rw [insertA_length, if_neg hslash]
    have : pages'.length = (pages'.map Prod.fst).length := by simp
    rw [this, hpk']

/-- Witness for claim C2 at a concrete two-fragment batch (one registered
page plus one anchor-less fragment, so K = 1). -/
theorem claim_C2_witness :
    ∃ r : RunResult, runPipeline (fun s => s)
        [(⟨some (some (str "DM")), some (str "T", none), [], []⟩ : HtmlFrag),
          (⟨none, none, [], []⟩ : HtmlFrag)] = some r ∧
      r.pages.length =
        (([(⟨some (some (str "DM")), some (str "T", none), [], []⟩ : HtmlFrag),
          (⟨none, none, [], []⟩ : HtmlFrag)].filterMap registeredName).length) + 1 ∧
      lookupA r.pages (str "/") = some rootPage ∧
      ∃ out, emitAll r = some out ∧
        out.length =
          (([(⟨some (some (str "DM")), some (str "T", none), [], []⟩ : HtmlFrag),
            (⟨none, none, [], []⟩ : HtmlFrag)].filterMap registeredName).length) + 1 :=
  claim_C2 (fun s => s)
    [(⟨some (some (str "DM")), some (str "T", none), [], []⟩ : HtmlFrag),
      (⟨none, none, [], []⟩ : HtmlFrag)]
    (by decide) (by decide) (by decide) (by decide)

end DmRef
